import Mathlib

/-!
Verification development for the olive3d software rasterizer.

The Rust sources (`src/geometry.rs`, `src/renderer.rs`, `src/ppm.rs`) are
shallowly embedded here.  `f32` arithmetic is modelled by exact rational
arithmetic (`ℚ`): every operation the embedded code performs (+, -, *, /,
abs, comparisons) is mirrored on `ℚ`, with Lean's total division-by-zero
convention (`q / 0 = 0`) in place of IEEE infinities/NaNs.  Machine
integers (`i32`, `u32`) are modelled by `ℤ`/`ℕ`, pixel values by `ℕ`,
and the pixel/depth buffers by lists.  Loops become folds or fuelled
recursion; a `panic!` or a division that the corresponding claim has to
rule out is modelled by an `Option` failure so that its unreachability is
a theorem rather than an assumption.
-/

namespace Olive3D

/-- Vectors of dimension `D`, modelling `Vector<D>` from `geometry.rs`:
an ordered tuple of `D` rational components. -/
abbrev Vec (D : ℕ) : Type := Fin D → ℚ

/-- Dot product, modelling `Dot for &Vector<D>` (`geometry.rs` lines
274-284): a running sum `result += self.data[i] * rhs.data[i]` over
`i in 0..D`. -/
def dot {D : ℕ} (a b : Vec D) : ℚ :=
  (List.finRange D).foldl (fun result i => result + a i * b i) 0

/-- Cross product, modelling `Cross for &Vector3` (`geometry.rs` lines
368-376). -/
def cross (a b : Vec 3) : Vec 3 :=
  ![a 1 * b 2 - a 2 * b 1, a 2 * b 0 - a 0 * b 2, a 0 * b 1 - a 1 * b 0]

/-- Barycentric weights, modelling `barycentric` (`renderer.rs` lines
116-125): cross the vectors `(x2-x0, x1-x0, x0-x)` and
`(y2-y0, y1-y0, y0-y)`; if the determinant `u.z` has absolute value
below 1 return the sentinel `(-1, 1, 1)`, otherwise the normalized
weights. -/
def barycentric (x y x0 y0 x1 y1 x2 y2 : ℚ) : Vec 3 :=
  let u := cross ![x2 - x0, x1 - x0, x0 - x] ![y2 - y0, y1 - y0, y0 - y]
  if |u 2| < 1 then ![-1, 1, 1]
  else ![1 - (u 0 + u 1) / u 2, u 1 / u 2, u 0 / u 2]

/-- The exact rational value of `f32::MIN`, the sentinel the renderer's
`fill` writes into every depth-buffer cell. -/
def FMIN : ℚ := -(2 ^ 128 - 2 ^ 104)

/-- Renderer state, modelling the `Renderer` struct (`renderer.rs` lines
9-15): a pixel buffer of packed 32-bit values, a same-length depth
buffer, and the dimensions. -/
structure RState where
  buffer : List ℕ
  zbuffer : List ℚ
  width : ℕ
  height : ℕ
  stride : ℕ
  deriving DecidableEq

/-- Constructor, modelling `Renderer::new` (`renderer.rs` lines 17-27):
the two `assert_eq!` preconditions become an `Option` guard; `stride`
is initialized to `width`. -/
def renderer_new (buffer : List ℕ) (zbuffer : List ℚ) (width height : ℕ) :
    Option RState :=
  if width * height = buffer.length ∧ zbuffer.length = buffer.length then
    some ⟨buffer, zbuffer, width, height, width⟩
  else none

/-- Pixel write, modelling `draw_pixel_unchecked` (`renderer.rs` lines
29-31): `buffer[(y * stride + x)] = pixel`, with no bounds check of its
own (an out-of-range `List.set` is a no-op where the Rust would abort). -/
def draw_pixel_unchecked (st : RState) (x y pixel : ℕ) : RState :=
  { st with buffer := st.buffer.set (y * st.stride + x) pixel }

/-- Frame reset, modelling `fill` (`renderer.rs` lines 33-36): every
pixel becomes `pixel` and every depth cell becomes `f32::MIN`. -/
def fill (st : RState) (pixel : ℕ) : RState :=
  { st with
    buffer := List.replicate st.buffer.length pixel
    zbuffer := List.replicate st.zbuffer.length FMIN }

/-- Bounding box of a triangle, modelling `triangle_bunding_box`
(`renderer.rs` lines 107-113): the source sorts the three x's and the
three y's and takes the first and last, i.e. the min and the max. -/
def triangle_bunding_box (verts : Fin 3 → Vec 3) : (ℚ × ℚ) × (ℚ × ℚ) :=
  ((min (verts 0 0) (min (verts 1 0) (verts 2 0)),
    min (verts 0 1) (min (verts 1 1) (verts 2 1))),
   (max (verts 0 0) (max (verts 1 0) (verts 2 0)),
    max (verts 0 1) (max (verts 1 1) (verts 2 1))))

/-- Rounding, modelling Rust's `f32::round`: round half away from zero. -/
def roundQ (q : ℚ) : ℤ := if 0 ≤ q then ⌊q + 1 / 2⌋ else ⌈q - 1 / 2⌉

/-- Clamping, modelling Rust's `i32::clamp(lo, hi)` (with `lo ≤ hi`). -/
def clampI (v lo hi : ℤ) : ℤ := if v < lo then lo else if hi < v then hi else v

/-- The clamped integer bounding box computed at the top of
`fill_triangle` (`renderer.rs` lines 63-67): round each rational bound,
clamp into `[0, width]` resp. `[0, height]`, and reinterpret as `u32`.
Returns `(x_min, y_min, x_max, y_max)`. -/
def clamped_box (verts : Fin 3 → Vec 3) (width height : ℕ) : ℕ × ℕ × ℕ × ℕ :=
  let bb := triangle_bunding_box verts
  ((clampI (roundQ bb.1.1) 0 width).toNat,
   (clampI (roundQ bb.1.2) 0 height).toNat,
   (clampI (roundQ bb.2.1) 0 width).toNat,
   (clampI (roundQ bb.2.2) 0 height).toNat)

/-- The perspective-correction loop of `fill_triangle` (`renderer.rs`
lines 84-88): `for i in 0..3 { bc[i] /= verts[i].z(); z += bc[i]; }`,
returning the depth-divided weights together with the accumulated sum. -/
def persp_divide (verts : Fin 3 → Vec 3) (bc : Vec 3) : Vec 3 × ℚ :=
  (List.finRange 3).foldl
    (fun p i =>
      let b := Function.update p.1 i (p.1 i / verts i 2)
      (b, p.2 + b i))
    (bc, 0)

/-- The rescaling loop of `fill_triangle` (`renderer.rs` lines 91-93):
`for i in 0..3 { bc[i] *= z; }`. -/
def persp_scale (bc : Vec 3) (z : ℚ) : Vec 3 :=
  (List.finRange 3).foldl (fun b i => Function.update b i (b i * z)) bc

/-- The skip condition of `fill_triangle` (`renderer.rs` lines 81-83):
a pixel is skipped when some barycentric weight is negative, i.e. a
pixel is inside the triangle iff `¬ outside_test bc`. -/
abbrev outside_test (bc : Vec 3) : Prop := bc 0 < 0 ∨ bc 1 < 0 ∨ bc 2 < 0

/-- The raw barycentric weights `fill_triangle` computes for the pixel
`(x, y)` (`renderer.rs` lines 71-80): the query point is the pixel
center `(x + 0.5, y + 0.5)`. -/
def pixel_bc (verts : Fin 3 → Vec 3) (x y : ℕ) : Vec 3 :=
  barycentric (x + 1 / 2) (y + 1 / 2)
    (verts 0 0) (verts 0 1) (verts 1 0) (verts 1 1) (verts 2 0) (verts 2 1)

/-- The perspective-corrected depth of the pixel `(x, y)` (`renderer.rs`
lines 84-89): the reciprocal of the sum of the depth-divided weights. -/
def pixel_depth (verts : Fin 3 → Vec 3) (x y : ℕ) : ℚ :=
  1 / (persp_divide verts (pixel_bc verts x y)).2

/-- The perspective-corrected barycentric weights the fragment stage is
invoked with (`renderer.rs` lines 91-93). -/
def pixel_weights (verts : Fin 3 → Vec 3) (x y : ℕ) : Vec 3 :=
  persp_scale (persp_divide verts (pixel_bc verts x y)).1 (pixel_depth verts x y)

/-- The per-pixel body of `fill_triangle`'s double loop (`renderer.rs`
lines 70-98).  Besides the updated state it returns the list of
barycentric-weight vectors the shader's fragment stage was invoked
with (empty or a singleton), so that "the fragment stage is invoked"
is expressible. -/
def fill_triangle_pixel (verts : Fin 3 → Vec 3) (frag : Vec 3 → Option ℕ)
    (st : RState) (x y : ℕ) : RState × List (Vec 3) :=
  if outside_test (pixel_bc verts x y) then (st, [])
  else
    let z := pixel_depth verts x y
    if st.zbuffer.getD (x + y * st.stride) 0 < z then
      let st1 := { st with zbuffer := st.zbuffer.set (x + y * st.stride) z }
      match frag (pixel_weights verts x y) with
      | some color => (draw_pixel_unchecked st1 x y color, [pixel_weights verts x y])
      | none => (st1, [pixel_weights verts x y])
    else (st, [])

/-- Triangle rasterization, modelling `fill_triangle` (`renderer.rs`
lines 62-101): the clamped bounding box is scanned row by row
(`for y in y_min..y_max { for x in x_min..x_max { ... } }`).  The
shader is modelled by its fragment stage `frag`; the returned list
accumulates the weight vectors of every fragment invocation. -/
def fill_triangle (verts : Fin 3 → Vec 3) (frag : Vec 3 → Option ℕ)
    (st : RState) : RState × List (Vec 3) :=
  let box := clamped_box verts st.width st.height
  (List.range' box.2.1 (box.2.2.2 - box.2.1)).foldl
    (fun acc y =>
      (List.range' box.1 (box.2.2.1 - box.1)).foldl
        (fun acc x =>
          let r := fill_triangle_pixel verts frag acc.1 x y
          (r.1, acc.2 ++ r.2))
        acc)
    (st, [])

/-- Degeneracy condition of claim C4: some two vertices coincide, or the
three vertices are collinear (the two edge vectors from vertex 0 are
linearly dependent). -/
def degenerate_triangle (verts : Fin 3 → Vec 3) : Prop :=
  (verts 0 = verts 1 ∨ verts 0 = verts 2 ∨ verts 1 = verts 2) ∨
  (∃ a b : ℚ, ¬(a = 0 ∧ b = 0) ∧
    ∀ i : Fin 3, a * (verts 1 i - verts 0 i) = b * (verts 2 i - verts 0 i))

/-- Matrices, modelling `Matrix<R, C>` from `geometry.rs`: a fixed
row-major grid of rationals. -/
abbrev Mat (R C : ℕ) : Type := Fin R → Fin C → ℚ

/-- Matrix multiplication, modelling `Mul for &Matrix` (`geometry.rs`
lines 434-447): the triple loop `result[a][c] += self[a][b] * rhs[b][c]`. -/
def matMul {A B C : ℕ} (m1 : Mat A B) (m2 : Mat B C) : Mat A C :=
  fun a c => (List.finRange B).foldl (fun acc b => acc + m1 a b * m2 b c) 0

/-- The viewport matrix, modelling `viewport` (`renderer.rs` lines
127-137). -/
def viewport (x y w h depth : ℚ) : Mat 4 4 :=
  ![![w / 2, 0, 0, x + w / 2],
    ![0, -h / 2, 0, y + h / 2],
    ![0, 0, depth / 2, depth / 2],
    ![0, 0, 0, 1]]

/-- Homogeneous column vector of a 3D point, modelling `v2m` from
`main.rs`: the 4×1 matrix `[[X], [Y], [Z], [1]]` that transform
matrices are applied to. -/
def v2m (X Y Z : ℚ) : Mat 4 1 :=
  ![![X], ![Y], ![Z], ![1]]

/-- The stepping strategy of `Ray`, modelling the stored function
pointer (`geometry.rs` line 123): either `iter_x` or `iter_y` is chosen
once at construction. -/
inductive Axis where
  | X : Axis
  | Y : Axis
  deriving DecidableEq

/-- The incremental Bresenham line rasterizer, modelling the `Ray`
struct (`geometry.rs` lines 110-124). -/
structure Ray where
  x0 : ℤ
  y0 : ℤ
  x1 : ℤ
  y1 : ℤ
  reached : Bool
  sx : ℤ
  sy : ℤ
  dx : ℤ
  dy : ℤ
  error : ℤ
  x : ℤ
  y : ℤ
  axis : Axis
  deriving DecidableEq

/-- Constructor, modelling `Ray::new` (`geometry.rs` lines 126-165):
signs toward the endpoint, absolute deltas, the x-major strategy when
`dy < dx` and the y-major strategy otherwise, and the initial
`reached` flag. -/
def Ray.new (x0 y0 x1 y1 : ℤ) : Ray :=
  let sx : ℤ := if x1 < x0 then -1 else 1
  let sy : ℤ := if y1 < y0 then -1 else 1
  let dx := |x1 - x0|
  let dy := |y1 - y0|
  if dy < dx then
    ⟨x0, y0, x1, y1, decide (x0 = x1), sx, sy, dx, dy, -dx, x0, y0, Axis.X⟩
  else
    ⟨x0, y0, x1, y1, decide (y0 = y1), sx, sy, dx, dy, -dy, x0, y0, Axis.Y⟩

/-- The x-major step, modelling `Ray::iter_x` (`geometry.rs` lines
169-181): return the current pixel, accumulate the error, optionally
step the minor axis, step the major axis, and set `reached` when the
endpoint's x is hit. -/
def Ray.iter_x (r : Ray) : (ℤ × ℤ) × Ray :=
  let result := (r.x, r.y)
  let error := r.error + r.dy + r.dy
  let y := if 0 ≤ error then r.y + r.sy else r.y
  let error2 := if 0 ≤ error then error - r.dx - r.dx else error
  let x := r.x + r.sx
  let reached := if x = r.x1 then true else r.reached
  (result, { r with error := error2, y := y, x := x, reached := reached })

/-- The y-major step, modelling `Ray::iter_y` (`geometry.rs` lines
182-194). -/
def Ray.iter_y (r : Ray) : (ℤ × ℤ) × Ray :=
  let result := (r.x, r.y)
  let error := r.error + r.dx + r.dx
  let x := if 0 ≤ error then r.x + r.sx else r.x
  let error2 := if 0 ≤ error then error - r.dy - r.dy else error
  let y := r.y + r.sy
  let reached := if y = r.y1 then true else r.reached
  (result, { r with error := error2, x := x, y := y, reached := reached })

/-- Dispatch, modelling `Ray::next_xy` (`geometry.rs` lines 166-168). -/
def Ray.next_xy (r : Ray) : (ℤ × ℤ) × Ray :=
  match r.axis with
  | Axis.X => r.iter_x
  | Axis.Y => r.iter_y

/-- The driver loop `while !ray.reached { ray.next_xy() }` of
`draw_line` (`renderer.rs` lines 57-60), collecting the yielded
coordinates; `fuel` bounds the iteration count and is shown sufficient
in the theorems below. -/
def ray_run : ℕ → Ray → List (ℤ × ℤ) × Ray
  | 0, r => ([], r)
  | fuel + 1, r =>
    if r.reached then ([], r)
    else
      let s := r.next_xy
      let t := ray_run fuel s.2
      (s.1 :: t.1, t.2)

/-- The pixel coordinates drawn by `draw_line` (`renderer.rs` lines
54-60) after clipping, in order: the final endpoint is drawn explicitly
first, then the rasterizer is pulled until its `reached` flag is set. -/
def draw_line_pixels (x0 y0 x1 y1 : ℤ) (fuel : ℕ) : List (ℤ × ℤ) :=
  (x1, y1) :: (ray_run fuel (Ray.new x0 y0 x1 y1)).1

/-- A 2D line segment, modelling the `Line2D` struct (`geometry.rs`
lines 7-12). -/
structure Line2D where
  x0 : ℚ
  y0 : ℚ
  x1 : ℚ
  y1 : ℚ
  deriving DecidableEq

/-- The horizontal half of the Cohen–Sutherland outcode (`geometry.rs`
lines 35-39): LEFT = 1, RIGHT = 2. -/
def hcode (x_min x_max x : ℚ) : ℕ :=
  if x < x_min then 1 else if x_max < x then 2 else 0

/-- The vertical half of the Cohen–Sutherland outcode (`geometry.rs`
lines 40-44): BOTTOM = 4, TOP = 8. -/
def vcode (y_min y_max y : ℚ) : ℕ :=
  if y < y_min then 4 else if y_max < y then 8 else 0

/-- The outcode closure of `box_clip` (`geometry.rs` lines 33-46): the
two `|=` accumulations OR the horizontal and vertical classifications. -/
def outcode (x_min y_min x_max y_max x y : ℚ) : ℕ :=
  hcode x_min x_max x ||| vcode y_min y_max y

/-- The `loop` of `Line2D::box_clip` (`geometry.rs` lines 52-106),
carrying the stored outcodes of the two endpoints.  The result is
wrapped in a second `Option`: the outer `none` stands for fuel
exhaustion or the `panic!("what!!!?")` arm, both shown unreachable
below. -/
def box_clip_loop (x_min y_min x_max y_max : ℚ) :
    ℕ → Line2D → ℕ → ℕ → Option (Option Line2D)
  | 0, _, _, _ => none
  | fuel + 1, line, ocs, oce =>
    if ocs ||| oce = 0 then some (some line)
    else if ocs &&& oce ≠ 0 then some none
    else
      let ocOut := max ocs oce
      let dx := line.x1 - line.x0
      let dy := line.y1 - line.y0
      let pt : Option (ℚ × ℚ) :=
        if ocOut &&& 8 ≠ 0 then
          some (line.x0 + (y_max - line.y0) / dy * dx, y_max)
        else if ocOut &&& 4 ≠ 0 then
          some (line.x0 + (y_min - line.y0) / dy * dx, y_min)
        else if ocOut &&& 2 ≠ 0 then
          some (x_max, line.y0 + (x_max - line.x0) / dx * dy)
        else if ocOut &&& 1 ≠ 0 then
          some (x_min, line.y0 + (x_min - line.x0) / dx * dy)
        else none
      match pt with
      | none => none
      | some p =>
        if ocs = ocOut then
          box_clip_loop x_min y_min x_max y_max fuel ⟨p.1, p.2, line.x1, line.y1⟩
            (outcode x_min y_min x_max y_max p.1 p.2) oce
        else
          box_clip_loop x_min y_min x_max y_max fuel ⟨line.x0, line.y0, p.1, p.2⟩
            ocs (outcode x_min y_min x_max y_max p.1 p.2)

/-- `Line2D::box_clip` (`geometry.rs` lines 14-107): reject degenerate
rectangles, then run the clipping loop on the initial outcodes.  Fuel 5
suffices: the loop-correctness theorem shows the outer `Option` is
always `some`. -/
def box_clip (l : Line2D) (x_min y_min x_max y_max : ℚ) : Option (Option Line2D) :=
  if x_max < x_min then some none
  else if y_max < y_min then some none
  else
    box_clip_loop x_min y_min x_max y_max 5 l
      (outcode x_min y_min x_max y_max l.x0 l.y0)
      (outcode x_min y_min x_max y_max l.x1 l.y1)

/-- Membership of a point in the closed clip rectangle. -/
def in_rect (x_min y_min x_max y_max x y : ℚ) : Prop :=
  x_min ≤ x ∧ x ≤ x_max ∧ y_min ≤ y ∧ y ≤ y_max

/-- The point of a segment at parameter `t ∈ [0, 1]`. -/
def seg_point (l : Line2D) (t : ℚ) : ℚ × ℚ :=
  (l.x0 + t * (l.x1 - l.x0), l.y0 + t * (l.y1 - l.y0))

/-- A segment meets the rectangle: some point of it (inclusive of the
endpoints) lies in the closed rectangle.  Its negation is the claim's
"lies fully outside". -/
def seg_meets (x_min y_min x_max y_max : ℚ) (l : Line2D) : Prop :=
  ∃ t : ℚ, 0 ≤ t ∧ t ≤ 1 ∧
    in_rect x_min y_min x_max y_max (seg_point l t).1 (seg_point l t).2

/-- The clipping measure: an endpoint outside a horizontal band costs 2,
one outside only vertically-inner-but-horizontal costs 1, an inside
endpoint 0.  Every loop iteration strictly decreases the sum over both
endpoints, which bounds the iteration count. -/
def lvl (m : ℕ) : ℕ := if m &&& 12 ≠ 0 then 2 else if m ≠ 0 then 1 else 0

/-- ASCII whitespace recognizer for `str::split_whitespace` as used on
the PPM header lines (space, newline, tab, carriage return cover every
byte the saver emits). -/
def isWs (c : ℕ) : Bool := c == 32 || c == 10 || c == 9 || c == 13

/-- Accumulator worker for `split_whitespace`: `acc` holds the current
token reversed. -/
def split_ws_go : List ℕ → List ℕ → List (List ℕ)
  | acc, [] => if acc.isEmpty then [] else [acc.reverse]
  | acc, c :: rest =>
    if isWs c then
      if acc.isEmpty then split_ws_go [] rest
      else acc.reverse :: split_ws_go [] rest
    else split_ws_go (c :: acc) rest

/-- Whitespace tokenization of a header line, modelling
`line.split_whitespace()` (`ppm.rs` line 51). -/
def split_ws (l : List ℕ) : List (List ℕ) := split_ws_go [] l

/-- Reading one line including its terminating newline, modelling
`BufRead::read_line` (`ppm.rs` line 50); returns the line and the
remaining bytes. -/
def read_line : List ℕ → List ℕ × List ℕ
  | [] => ([], [])
  | c :: rest =>
    if c = 10 then ([10], rest)
    else
      let p := read_line rest
      (c :: p.1, p.2)

/-- Parsing a decimal `u32` token, modelling `str::parse::<u32>()` on
the digit strings the saver produces (`ppm.rs` lines 62, 66, 70); the
`unwrap` of a failed parse becomes `none`. -/
def parse_u32 (t : List ℕ) : Option ℕ :=
  if t.isEmpty then none
  else if t.all (fun c => 48 ≤ c && c ≤ 57) then
    let v := t.foldl (fun acc c => acc * 10 + (c - 48)) 0
    if v < 2 ^ 32 then some v else none
  else none

/-- The header-parsing state machine of `load_ppm_file_to_buffer`
(`ppm.rs` lines 31-38). -/
inductive NowReading where
  | magicNumber : NowReading
  | width : NowReading
  | height : NowReading
  | maxVal : NowReading
  | data : NowReading
  deriving DecidableEq

/-- Processing the whitespace tokens of one header line (`ppm.rs` lines
52-77): the magic token must be `"P6"` (bytes `[80, 54]`), the next
three numeric tokens fill width, height and max value, and a token in
the `Data` state is the `panic!()` arm, modelled as `none`. -/
def process_tokens : List (List ℕ) → NowReading → ℕ → ℕ → ℕ →
    Option (NowReading × ℕ × ℕ × ℕ)
  | [], s, w, h, m => some (s, w, h, m)
  | t :: rest, s, w, h, m =>
    match s with
    | NowReading.magicNumber =>
      if t = [80, 54] then process_tokens rest NowReading.width w h m else none
    | NowReading.width =>
      match parse_u32 t with
      | some n => process_tokens rest NowReading.height n h m
      | none => none
    | NowReading.height =>
      match parse_u32 t with
      | some n => process_tokens rest NowReading.maxVal w n m
      | none => none
    | NowReading.maxVal =>
      match parse_u32 t with
      | some n => process_tokens rest NowReading.data w h n
      | none => none
    | NowReading.data => none

/-- The header loop `while now_reading != NowReading::Data` (`ppm.rs`
lines 48-78): read a line, feed its tokens to the state machine, repeat.
`fuel` bounds the iterations (the Rust loop would spin forever at end of
input, which the fuel models as `none`). -/
def header_loop : ℕ → NowReading → ℕ → ℕ → ℕ → List ℕ →
    Option (ℕ × ℕ × ℕ × List ℕ)
  | 0, _, _, _, _, _ => none
  | fuel + 1, s, w, h, m, input =>
    if s = NowReading.data then some (w, h, m, input)
    else
      let p := read_line input
      match process_tokens (split_ws p.1) s w h m with
      | some r => header_loop fuel r.1 r.2.1 r.2.2.1 r.2.2.2 p.2
      | none => none

/-- The pixel-reassembly loop of `load_ppm_file_to_buffer` (`ppm.rs`
lines 81-88): read 3 bytes at a time while possible; each pixel starts
as `0xff000000` and ORs in `((x as u32) & 0xff) << (8 * i)`. -/
def read_pixels : List ℕ → List ℕ
  | b0 :: b1 :: b2 :: rest =>
    (((0xff000000 ||| ((b0 &&& 0xff) <<< (8 * 0))) |||
      ((b1 &&& 0xff) <<< (8 * 1))) |||
      ((b2 &&& 0xff) <<< (8 * 2))) :: read_pixels rest
  | _ => []

/-- Loaded image, modelling the `Image` struct (`ppm.rs` lines 97-101). -/
structure Image where
  buffer : List ℕ
  width : ℕ
  height : ℕ
  deriving DecidableEq

/-- PPM loading, modelling `load_ppm_file_to_buffer` (`ppm.rs` lines
40-95) on a byte list: parse the header with the state machine, then
reassemble pixels; the final `assert_eq!(buffer.len(), width * height)`
becomes an `Option` guard. -/
def load_ppm_file_to_buffer (input : List ℕ) : Option Image :=
  match header_loop (input.length + 1) NowReading.magicNumber 0 0 0 input with
  | none => none
  | some r =>
    let buffer := read_pixels r.2.2.2
    if buffer.length = r.1 * r.2.1 then some ⟨buffer, r.1, r.2.1⟩ else none

/-- ASCII decimal rendering of a natural number, modelling `u32`'s
`Display` as used by `write!(file, "P6\n{} {} 255\n", ...)`. -/
def nat_to_dec (n : ℕ) : List ℕ :=
  if n = 0 then [48] else (Nat.digits 10 n).reverse.map (fun d => d + 48)

/-- The three RGB bytes the saver writes for one pixel (`ppm.rs` lines
20-24): low byte, second byte, third byte; the alpha byte is dropped. -/
def pix_bytes (pixel : ℕ) : List ℕ :=
  [pixel &&& 0xff, (pixel >>> 8) &&& 0xff, (pixel >>> (8 * 2)) &&& 0xff]

/-- PPM saving, modelling `save_buffer_to_ppm_file` (`ppm.rs` lines
7-29) as the byte list written: the header `"P6\n{w} {h} 255\n"`
followed, row-major, by the three RGB bytes of each pixel
`buffer[y * stride + x]`. -/
def save_buffer_to_ppm_file (buffer : List ℕ) (width height stride : ℕ) : List ℕ :=
  [80, 54, 10] ++ nat_to_dec width ++ [32] ++ nat_to_dec height ++ [32, 50, 53, 53, 10] ++
  (List.range height).flatMap (fun y =>
    (List.range width).flatMap (fun x => pix_bytes (buffer.getD (y * stride + x) 0)))

/-- C10: for all vectors `a` and `b` of the same dimension `D`,
`dot(a, b) == dot(b, a)` — the dot product implemented by the running
sum of `geometry.rs` lines 274-284 is commutative. -/
theorem dot_comm_vectors {D : ℕ} (a b : Vec D) : dot a b = dot b a := by
  unfold dot
  congr 1
  funext r i
  ring

/-- C2: `barycentric` computes the cross product `(cx, cy, cz)` of the
vectors `(x2-x0, x1-x0, x0-x)` and `(y2-y0, y1-y0, y0-y)`; when
`|cz| < 1` it returns the sentinel `(-1, 1, 1)` — which satisfies the
skip condition of `fill_triangle`, i.e. fails the all-weights-nonnegative
inside test — and otherwise it returns exactly
`(1 - (cx+cy)/cz, cy/cz, cx/cz)`. -/
theorem barycentric_cross_product_spec (x y x0 y0 x1 y1 x2 y2 : ℚ) :
    (barycentric x y x0 y0 x1 y1 x2 y2 =
      (if |(x2 - x0) * (y1 - y0) - (x1 - x0) * (y2 - y0)| < 1 then ![-1, 1, 1]
       else
         ![1 - ((x1 - x0) * (y0 - y) - (x0 - x) * (y1 - y0) +
                ((x0 - x) * (y2 - y0) - (x2 - x0) * (y0 - y))) /
               ((x2 - x0) * (y1 - y0) - (x1 - x0) * (y2 - y0)),
           ((x0 - x) * (y2 - y0) - (x2 - x0) * (y0 - y)) /
             ((x2 - x0) * (y1 - y0) - (x1 - x0) * (y2 - y0)),
           ((x1 - x0) * (y0 - y) - (x0 - x) * (y1 - y0)) /
             ((x2 - x0) * (y1 - y0) - (x1 - x0) * (y2 - y0))])) ∧
    outside_test ![-1, 1, 1] := by
  constructor
  · simp only [barycentric, cross, Matrix.cons_val_zero, Matrix.cons_val_one, Matrix.head_cons,
      Matrix.cons_val_two, Matrix.tail_cons]
  · left
    norm_num

/-- A fold that only accumulates additions is the initial value plus a
list sum. -/
theorem foldl_add_map_sum {α : Type} (f : α → ℚ) (init : ℚ) (l : List α) :
    l.foldl (fun acc b => acc + f b) init = init + (l.map f).sum := by
  induction l generalizing init with
  | nil => simp
  | cons a t ih => simp [List.foldl_cons, ih, add_assoc]

/-- The inner accumulation loop of `matMul` computes the usual entry sum. -/
theorem matMul_eq_sum {A B C : ℕ} (m1 : Mat A B) (m2 : Mat B C) (a : Fin A) (c : Fin C) :
    matMul m1 m2 a c = ∑ b : Fin B, m1 a b * m2 b c := by
  rw [matMul, foldl_add_map_sum, Fin.sum_univ_def, zero_add]

/-- C9: the matrix `viewport x y w h depth`, applied to a homogeneous
column point `(X, Y, Z, 1)` by the matrix product used in `main.rs`,
maps `X = -1` to pixel `x` and `X = 1` to `x + w`, maps `Y = -1` to
`y + h` and `Y = 1` to `y` (screen y grows downward), maps `Z = -1` to
`0` and `Z = 1` to `depth`, and leaves the homogeneous w-component 1. -/
theorem viewport_maps_clip_cube (x y w h d X Y Z : ℚ) :
    matMul (viewport x y w h d) (v2m (-1) Y Z) 0 0 = x ∧
    matMul (viewport x y w h d) (v2m 1 Y Z) 0 0 = x + w ∧
    matMul (viewport x y w h d) (v2m X (-1) Z) 1 0 = y + h ∧
    matMul (viewport x y w h d) (v2m X 1 Z) 1 0 = y ∧
    matMul (viewport x y w h d) (v2m X Y (-1)) 2 0 = 0 ∧
    matMul (viewport x y w h d) (v2m X Y 1) 2 0 = d ∧
    matMul (viewport x y w h d) (v2m X Y Z) 3 0 = 1 := by
  refine ⟨?_, ?_, ?_, ?_, ?_, ?_, ?_⟩ <;>
    simp [matMul_eq_sum, Fin.sum_univ_four, viewport, v2m, Matrix.vecHead, Matrix.vecTail] <;>
    ring

/-- C1: per-pixel depth protocol of `fill_triangle`.  For a covered pixel
(all three barycentric weights nonnegative): the depth buffer is updated
and the fragment stage is invoked (with the corrected weights) iff the
perspective-corrected depth strictly exceeds the stored value; otherwise
nothing happens at all; after `fill` every depth cell holds the `f32::MIN`
sentinel, so a first write — whose corrected depth exceeds the sentinel —
always succeeds; and when the fragment stage returns no color the pixel
buffer is untouched even though the depth buffer was already updated. -/
theorem fill_triangle_depth_protocol
    (verts : Fin 3 → Vec 3) (frag : Vec 3 → Option ℕ) (st : RState) (x y : ℕ)
    (hcov : ¬ outside_test (pixel_bc verts x y)) :
    (st.zbuffer.getD (x + y * st.stride) 0 < pixel_depth verts x y →
      (fill_triangle_pixel verts frag st x y).1.zbuffer
          = st.zbuffer.set (x + y * st.stride) (pixel_depth verts x y) ∧
      (fill_triangle_pixel verts frag st x y).2 = [pixel_weights verts x y]) ∧
    (¬ st.zbuffer.getD (x + y * st.stride) 0 < pixel_depth verts x y →
      fill_triangle_pixel verts frag st x y = (st, [])) ∧
    (∀ c j, j < st.zbuffer.length → (fill st c).zbuffer.getD j 0 = FMIN) ∧
    (st.zbuffer.getD (x + y * st.stride) 0 = FMIN → FMIN < pixel_depth verts x y →
      (fill_triangle_pixel verts frag st x y).1.zbuffer
          = st.zbuffer.set (x + y * st.stride) (pixel_depth verts x y) ∧
      (fill_triangle_pixel verts frag st x y).2 = [pixel_weights verts x y]) ∧
    (st.zbuffer.getD (x + y * st.stride) 0 < pixel_depth verts x y →
      frag (pixel_weights verts x y) = none →
      (fill_triangle_pixel verts frag st x y).1.buffer = st.buffer) := by
  have hfill : ∀ c j, j < st.zbuffer.length → (fill st c).zbuffer.getD j 0 = FMIN := by
    intro c j hj
    simp [fill, List.getD, List.getElem?_replicate, hj]
  have hpos : st.zbuffer.getD (x + y * st.stride) 0 < pixel_depth verts x y →
      (fill_triangle_pixel verts frag st x y).1.zbuffer
          = st.zbuffer.set (x + y * st.stride) (pixel_depth verts x y) ∧
      (fill_triangle_pixel verts frag st x y).2 = [pixel_weights verts x y] ∧
      (frag (pixel_weights verts x y) = none →
        (fill_triangle_pixel verts frag st x y).1.buffer = st.buffer) := by
    intro hlt
    rw [fill_triangle_pixel, if_neg hcov]
    simp only [if_pos hlt]
    cases hfrag : frag (pixel_weights verts x y) with
    | some color => simp [draw_pixel_unchecked, hfrag]
    | none => simp [hfrag]
  refine ⟨fun h => ⟨(hpos h).1, (hpos h).2.1⟩, ?_, hfill, ?_, fun h hn => (hpos h).2.2 hn⟩
  · intro hge
    rw [fill_triangle_pixel, if_neg hcov]
    simp only [if_neg hge]
  · intro hmin hgt
    have h := hpos (by rw [hmin]; exact hgt)
    exact ⟨h.1, h.2.1⟩

/-- Witness for C1 at a concrete covered pixel: the triangle
`(0,0,1), (4,0,1), (0,4,1)` covers pixel `(1,1)`. -/
theorem fill_triangle_depth_protocol_witness :
    ¬ outside_test (pixel_bc ![![0, 0, 1], ![4, 0, 1], ![0, 4, 1]] 1 1) ∧
    (∀ c j, j < (⟨List.replicate 16 0, List.replicate 16 FMIN, 4, 4, 4⟩ : RState).zbuffer.length →
      (fill ⟨List.replicate 16 0, List.replicate 16 FMIN, 4, 4, 4⟩ c).zbuffer.getD j 0 = FMIN) := by
  have hcov : ¬ outside_test (pixel_bc ![![0, 0, 1], ![4, 0, 1], ![0, 4, 1]] 1 1) := by
    unfold pixel_bc barycentric cross outside_test
    norm_num
  exact ⟨hcov,
    (fill_triangle_depth_protocol ![![0, 0, 1], ![4, 0, 1], ![0, 4, 1]] (fun _ => some 7)
      ⟨List.replicate 16 0, List.replicate 16 FMIN, 4, 4, 4⟩ 1 1 hcov).2.2.1⟩

/-- A degenerate triangle has a vanishing rasterization determinant. -/
theorem degenerate_det_zero (verts : Fin 3 → Vec 3) (h : degenerate_triangle verts) :
    (verts 2 0 - verts 0 0) * (verts 1 1 - verts 0 1)
      - (verts 1 0 - verts 0 0) * (verts 2 1 - verts 0 1) = 0 := by
  rcases h with (h01 | h02 | h12) | ⟨a, b, hab, hi⟩
  · rw [h01]; ring
  · rw [h02]; ring
  · rw [h12]; ring
  · by_cases ha : a = 0
    · have hb : b ≠ 0 := fun hb => hab ⟨ha, hb⟩
      have h20 : verts 2 0 - verts 0 0 = 0 := by
        have := hi 0; rw [ha, zero_mul] at this
        exact (mul_eq_zero.mp this.symm).resolve_left hb
      have h21 : verts 2 1 - verts 0 1 = 0 := by
        have := hi 1; rw [ha, zero_mul] at this
        exact (mul_eq_zero.mp this.symm).resolve_left hb
      rw [h20, h21]; ring
    · have h0 := hi 0
      have h1 := hi 1
      have : a * ((verts 2 0 - verts 0 0) * (verts 1 1 - verts 0 1)
          - (verts 1 0 - verts 0 0) * (verts 2 1 - verts 0 1)) = 0 := by
        linear_combination (verts 2 0 - verts 0 0) * h1 - (verts 2 1 - verts 0 1) * h0
      exact (mul_eq_zero.mp this).resolve_left ha

/-- For a degenerate triangle every candidate pixel takes the sentinel
branch of `barycentric` and is skipped, leaving the state unchanged and
the fragment stage uninvoked. -/
theorem degenerate_pixel_skip (verts : Fin 3 → Vec 3) (h : degenerate_triangle verts)
    (frag : Vec 3 → Option ℕ) (st : RState) (x y : ℕ) :
    fill_triangle_pixel verts frag st x y = (st, []) := by
  have hdet := degenerate_det_zero verts h
  rw [fill_triangle_pixel, if_pos]
  unfold pixel_bc barycentric cross
  simp only [Matrix.cons_val_zero, Matrix.cons_val_one, Matrix.head_cons, Matrix.cons_val_two,
    Matrix.tail_cons]
  rw [hdet]
  norm_num [outside_test]

/-- C4: for a triangle with two coincident vertices or three collinear
vertices, `fill_triangle` aborts on no pixel: the degenerate-determinant
branch makes every candidate pixel fail the inside test, so the pixel
buffer and the depth buffer are unchanged and the fragment stage is never
invoked. -/
theorem fill_triangle_degenerate_no_pixels (verts : Fin 3 → Vec 3)
    (frag : Vec 3 → Option ℕ) (st : RState) (h : degenerate_triangle verts) :
    fill_triangle verts frag st = (st, []) := by
  rw [fill_triangle]
  have hrow : ∀ (y : ℕ) (xs : List ℕ) (p : RState × List (Vec 3)),
      xs.foldl (fun acc x =>
        ((fill_triangle_pixel verts frag acc.1 x y).1,
          acc.2 ++ (fill_triangle_pixel verts frag acc.1 x y).2)) p = p := by
    intro y xs
    induction xs with
    | nil => intro p; rfl
    | cons a t ih =>
      intro p
      rw [List.foldl_cons, degenerate_pixel_skip verts h]
      simpa using ih p
  have hall : ∀ (ys : List ℕ) (p : RState × List (Vec 3)),
      ys.foldl (fun acc y =>
        (List.range' (clamped_box verts st.width st.height).1
            ((clamped_box verts st.width st.height).2.2.1
              - (clamped_box verts st.width st.height).1)).foldl
          (fun acc x =>
            ((fill_triangle_pixel verts frag acc.1 x y).1,
              acc.2 ++ (fill_triangle_pixel verts frag acc.1 x y).2)) acc) p = p := by
    intro ys
    induction ys with
    | nil => intro p; rfl
    | cons a t ih =>
      intro p
      rw [List.foldl_cons, hrow]
      exact ih p
  exact hall _ _

/-- Witness for C4: a concrete collinear triangle on a concrete 2×2
renderer state is rasterized to no pixels. -/
theorem fill_triangle_degenerate_no_pixels_witness :
    fill_triangle ![![0, 0, 1], ![1, 1, 1], ![2, 2, 1]] (fun _ => some 5)
      ⟨[1, 2, 3, 4], [0, 0, 0, 0], 2, 2, 2⟩
      = (⟨[1, 2, 3, 4], [0, 0, 0, 0], 2, 2, 2⟩, []) := by
  apply fill_triangle_degenerate_no_pixels
  right
  refine ⟨2, 1, by norm_num, ?_⟩
  intro i
  fin_cases i <;> norm_num [Matrix.vecHead, Matrix.vecTail]

/-- The result of `clampI v 0 w`, seen as a natural number, is at
most `w`. -/
theorem clampI_toNat_le (v : ℤ) (w : ℕ) : (clampI v 0 w).toNat ≤ w := by
  unfold clampI
  split_ifs with h1 h2 <;> omega

/-- C5: every pixel-buffer and depth-buffer access `fill_triangle`
performs is in bounds: for a renderer built by `Renderer::new` (which
asserts `buffer.len() == width * height` and equal z-buffer length), any
pixel `(x, y)` inside the clamped bounding box satisfies `x < width`,
`y < height`, and its index `x + y * stride` is below both buffer
lengths, even though `draw_pixel_unchecked` itself checks nothing. -/
theorem fill_triangle_accesses_in_bounds
    (buffer : List ℕ) (zbuffer : List ℚ) (width height : ℕ) (st : RState)
    (hnew : renderer_new buffer zbuffer width height = some st)
    (verts : Fin 3 → Vec 3) (x y : ℕ)
    (hx : x < (clamped_box verts st.width st.height).2.2.1)
    (hy : y < (clamped_box verts st.width st.height).2.2.2) :
    x < st.width ∧ y < st.height ∧
    x + y * st.stride < st.buffer.length ∧ x + y * st.stride < st.zbuffer.length := by
  rw [renderer_new] at hnew
  split_ifs at hnew with hguard
  cases hnew
  obtain ⟨hlen, hzlen⟩ := hguard
  have hxw : x < width := lt_of_lt_of_le hx (clampI_toNat_le _ _)
  have hyh : y < height := lt_of_lt_of_le hy (clampI_toNat_le _ _)
  refine ⟨hxw, hyh, ?_, ?_⟩
  · show x + y * width < buffer.length
    calc x + y * width < width + y * width := by omega
      _ = (1 + y) * width := by ring
      _ ≤ height * width := Nat.mul_le_mul_right width (by omega)
      _ = width * height := Nat.mul_comm _ _
      _ = buffer.length := hlen
  · show x + y * width < zbuffer.length
    rw [hzlen, ← hlen]
    calc x + y * width < width + y * width := by omega
      _ = (1 + y) * width := by ring
      _ ≤ height * width := Nat.mul_le_mul_right width (by omega)
      _ = width * height := Nat.mul_comm _ _

/-- Witness for C5 with a concrete 2×2 renderer and a triangle reaching
pixel `(1, 1)`. -/
theorem fill_triangle_accesses_in_bounds_witness :
    renderer_new [0, 0, 0, 0] [0, 0, 0, 0] 2 2
        = some ⟨[0, 0, 0, 0], [0, 0, 0, 0], 2, 2, 2⟩ ∧
    (1 < (clamped_box ![![0, 0, 1], ![2, 0, 1], ![0, 2, 1]] 2 2).2.2.1) ∧
    (1 < (clamped_box ![![0, 0, 1], ![2, 0, 1], ![0, 2, 1]] 2 2).2.2.2) ∧
    (1 + 1 * 2 < 4) := by
  have hnew : renderer_new [0, 0, 0, 0] [0, 0, 0, 0] 2 2
      = some ⟨[0, 0, 0, 0], [0, 0, 0, 0], 2, 2, 2⟩ := by
    rw [renderer_new]
    norm_num
  have hbox : (clamped_box ![![0, 0, 1], ![2, 0, 1], ![0, 2, 1]] 2 2).2.2.1 = 2 ∧
      (clamped_box ![![0, 0, 1], ![2, 0, 1], ![0, 2, 1]] 2 2).2.2.2 = 2 := by
    unfold clamped_box triangle_bunding_box roundQ clampI
    norm_num
    rfl
  refine ⟨hnew, by rw [hbox.1]; exact one_lt_two, by rw [hbox.2]; exact one_lt_two, ?_⟩
  have := fill_triangle_accesses_in_bounds [0, 0, 0, 0] [0, 0, 0, 0] 2 2
    ⟨[0, 0, 0, 0], [0, 0, 0, 0], 2, 2, 2⟩ hnew ![![0, 0, 1], ![2, 0, 1], ![0, 2, 1]] 1 1
    (by rw [hbox.1]; exact one_lt_two) (by rw [hbox.2]; exact one_lt_two)
  exact this.2.2.1

/-- Running an x-major ray with `k` remaining major steps yields exactly
`k` coordinates, one per unit step of x, never reaching `x1`'s column,
and ends with the `reached` flag set. -/
theorem ray_run_iter_x (k : ℕ) :
    ∀ (r : Ray) (fuel : ℕ), r.axis = Axis.X → (r.sx = 1 ∨ r.sx = -1) →
    r.x1 = r.x + k * r.sx → r.reached = decide (k = 0) → k ≤ fuel →
    (ray_run fuel r).1.length = k ∧
    (ray_run fuel r).2.reached = true ∧
    (∀ i, i < k → ((ray_run fuel r).1[i]?).map Prod.fst = some (r.x + i * r.sx)) ∧
    (0 < k → (ray_run fuel r).1.head? = some (r.x, r.y)) := by
  induction k with
  | zero =>
    intro r fuel haxis hsx hx1 hreach hfuel
    have hr : r.reached = true := by simpa using hreach
    cases fuel with
    | zero => simp [ray_run, hr]
    | succ f => simp [ray_run, hr]
  | succ m ih =>
    intro r fuel haxis hsx hx1 hreach hfuel
    have hr : r.reached = false := by simpa using hreach
    cases fuel with
    | zero => omega
    | succ f =>
      have hsx0 : r.sx ≠ 0 := by rcases hsx with h | h <;> simp [h]
      have hstep : ray_run (f + 1) r
          = ((r.next_xy.1 :: (ray_run f r.next_xy.2).1), (ray_run f r.next_xy.2).2) := by
        rw [ray_run]
        simp [hr]
      have hnext : r.next_xy = r.iter_x := by rw [Ray.next_xy, haxis]
      set r2 := r.next_xy.2 with hr2
      have hfields : r2.axis = Axis.X ∧ r2.sx = r.sx ∧ r2.x1 = r.x1 ∧ r2.x = r.x + r.sx ∧
          r2.reached = decide (r2.x = r.x1) := by
        rw [hr2, hnext, Ray.iter_x]
        refine ⟨haxis, rfl, rfl, rfl, ?_⟩
        simp only
        split_ifs with h <;> simp [h, hr]
      have hx1' : r2.x1 = r2.x + m * r2.sx := by
        rw [hfields.2.2.1, hfields.2.2.2.1, hfields.2.1, hx1]
        push_cast
        ring
      have hreach' : r2.reached = decide (m = 0) := by
        rw [hfields.2.2.2.2]
        have : (r2.x = r.x1) ↔ (m = 0) := by
          rw [hfields.2.2.2.1, hx1]
          constructor
          · intro h
            have : (m + 1 : ℤ) * r.sx = 1 * r.sx := by push_cast at h ⊢; linarith
            have := mul_right_cancel₀ hsx0 this
            omega
          · intro h
            subst h
            push_cast
            ring
        simp [this]
      obtain ⟨ihlen, ihreach, ihget, ihhead⟩ :=
        ih r2 f hfields.1 (hfields.2.1 ▸ hsx) hx1' hreach' (by omega)
      have hres : r.next_xy.1 = (r.x, r.y) := by rw [hnext, Ray.iter_x]
      refine ⟨?_, ?_, ?_, ?_⟩
      · rw [hstep]; simp [ihlen]
      · rw [hstep]; exact ihreach
      · intro i hi
        rw [hstep]
        cases i with
        | zero => simp [hres]
        | succ j =>
          have hj : j < m := by omega
          have := ihget j hj
          simp only [List.getElem?_cons_succ]
          rw [this, hfields.2.2.2.1, hfields.2.1]
          congr 1
          push_cast
          ring
      · intro _
        rw [hstep]
        simp [hres]

/-- Running a y-major ray with `k` remaining major steps is symmetric to
the x-major case. -/
theorem ray_run_iter_y (k : ℕ) :
    ∀ (r : Ray) (fuel : ℕ), r.axis = Axis.Y → (r.sy = 1 ∨ r.sy = -1) →
    r.y1 = r.y + k * r.sy → r.reached = decide (k = 0) → k ≤ fuel →
    (ray_run fuel r).1.length = k ∧
    (ray_run fuel r).2.reached = true ∧
    (∀ i, i < k → ((ray_run fuel r).1[i]?).map Prod.snd = some (r.y + i * r.sy)) ∧
    (0 < k → (ray_run fuel r).1.head? = some (r.x, r.y)) := by
  induction k with
  | zero =>
    intro r fuel haxis hsy hy1 hreach hfuel
    have hr : r.reached = true := by simpa using hreach
    cases fuel with
    | zero => simp [ray_run, hr]
    | succ f => simp [ray_run, hr]
  | succ m ih =>
    intro r fuel haxis hsy hy1 hreach hfuel
    have hr : r.reached = false := by simpa using hreach
    cases fuel with
    | zero => omega
    | succ f =>
      have hsy0 : r.sy ≠ 0 := by rcases hsy with h | h <;> simp [h]
      have hstep : ray_run (f + 1) r
          = ((r.next_xy.1 :: (ray_run f r.next_xy.2).1), (ray_run f r.next_xy.2).2) := by
        rw [ray_run]
        simp [hr]
      have hnext : r.next_xy = r.iter_y := by rw [Ray.next_xy, haxis]
      set r2 := r.next_xy.2 with hr2
      have hfields : r2.axis = Axis.Y ∧ r2.sy = r.sy ∧ r2.y1 = r.y1 ∧ r2.y = r.y + r.sy ∧
          r2.reached = decide (r2.y = r.y1) := by
        rw [hr2, hnext, Ray.iter_y]
        refine ⟨haxis, rfl, rfl, rfl, ?_⟩
        simp only
        split_ifs with h <;> simp [h, hr]
      have hy1' : r2.y1 = r2.y + m * r2.sy := by
        rw [hfields.2.2.1, hfields.2.2.2.1, hfields.2.1, hy1]
        push_cast
        ring
      have hreach' : r2.reached = decide (m = 0) := by
        rw [hfields.2.2.2.2]
        have : (r2.y = r.y1) ↔ (m = 0) := by
          rw [hfields.2.2.2.1, hy1]
          constructor
          · intro h
            have : (m + 1 : ℤ) * r.sy = 1 * r.sy := by push_cast at h ⊢; linarith
            have := mul_right_cancel₀ hsy0 this
            omega
          · intro h
            subst h
            push_cast
            ring
        simp [this]
      obtain ⟨ihlen, ihreach, ihget, ihhead⟩ :=
        ih r2 f hfields.1 (hfields.2.1 ▸ hsy) hy1' hreach' (by omega)
      have hres : r.next_xy.1 = (r.x, r.y) := by rw [hnext, Ray.iter_y]
      refine ⟨?_, ?_, ?_, ?_⟩
      · rw [hstep]; simp [ihlen]
      · rw [hstep]; exact ihreach
      · intro i hi
        rw [hstep]
        cases i with
        | zero => simp [hres]
        | succ j =>
          have hj : j < m := by omega
          have := ihget j hj
          simp only [List.getElem?_cons_succ]
          rw [this, hfields.2.2.2.1, hfields.2.1]
          congr 1
          push_cast
          ring
      · intro _
        rw [hstep]
        simp [hres]

/-- C6: pulling `Ray::next_xy` until the `reached` flag is set
terminates after exactly `max(|x1-x0|, |y1-y0|)` yields (so that much
fuel suffices and the final flag is set); the sequence starts at
`(x0, y0)` and advances the major axis (x when `|dy| < |dx|`, y
otherwise) by its unit sign at every yield; the endpoint `(x1, y1)` is
never yielded by the loop; and `draw_line` draws the endpoint explicitly
before the loop, so start through end inclusive are covered. -/
theorem ray_yields_major_axis_steps (x0 y0 x1 y1 : ℤ) (fuel : ℕ)
    (hfuel : max (x1 - x0).natAbs (y1 - y0).natAbs ≤ fuel) :
    (ray_run fuel (Ray.new x0 y0 x1 y1)).1.length
        = max (x1 - x0).natAbs (y1 - y0).natAbs ∧
    (ray_run fuel (Ray.new x0 y0 x1 y1)).2.reached = true ∧
    (0 < max (x1 - x0).natAbs (y1 - y0).natAbs →
      (ray_run fuel (Ray.new x0 y0 x1 y1)).1.head? = some (x0, y0)) ∧
    ((x1, y1) ∉ (ray_run fuel (Ray.new x0 y0 x1 y1)).1) ∧
    ((y1 - y0).natAbs < (x1 - x0).natAbs →
      ∀ i, i < max (x1 - x0).natAbs (y1 - y0).natAbs →
        (((ray_run fuel (Ray.new x0 y0 x1 y1)).1[i]?).map Prod.fst)
          = some (x0 + i * (if x1 < x0 then -1 else 1))) ∧
    (¬ (y1 - y0).natAbs < (x1 - x0).natAbs →
      ∀ i, i < max (x1 - x0).natAbs (y1 - y0).natAbs →
        (((ray_run fuel (Ray.new x0 y0 x1 y1)).1[i]?).map Prod.snd)
          = some (y0 + i * (if y1 < y0 then -1 else 1))) ∧
    draw_line_pixels x0 y0 x1 y1 fuel
        = (x1, y1) :: (ray_run fuel (Ray.new x0 y0 x1 y1)).1 := by
  by_cases hmaj : (y1 - y0).natAbs < (x1 - x0).natAbs
  · -- x-major branch of `Ray::new`
    have hcond : |y1 - y0| < |x1 - x0| := by
      rw [Int.abs_eq_natAbs, Int.abs_eq_natAbs]
      exact_mod_cast hmaj
    have hmax : max (x1 - x0).natAbs (y1 - y0).natAbs = (x1 - x0).natAbs :=
      Nat.max_eq_left (le_of_lt hmaj)
    have hnew : Ray.new x0 y0 x1 y1
        = ⟨x0, y0, x1, y1, decide (x0 = x1), if x1 < x0 then -1 else 1,
           if y1 < y0 then -1 else 1, |x1 - x0|, |y1 - y0|, -|x1 - x0|, x0, y0, Axis.X⟩ := by
      rw [Ray.new]
      simp [hcond]
    have hsx : ((if x1 < x0 then (-1 : ℤ) else 1) = 1 ∨ (if x1 < x0 then (-1 : ℤ) else 1) = -1) := by
      split_ifs <;> simp
    have hx1 : x1 = x0 + ((x1 - x0).natAbs : ℤ) * (if x1 < x0 then -1 else 1) := by
      split_ifs with h <;> omega
    have hreach : decide (x0 = x1) = decide ((x1 - x0).natAbs = 0) := by
      simp only [decide_eq_decide]
      omega
    obtain ⟨hlen, hdone, hget, hhead⟩ :=
      ray_run_iter_x (x1 - x0).natAbs (Ray.new x0 y0 x1 y1) fuel
        (by rw [hnew]) (by rw [hnew]; exact hsx) (by rw [hnew]; exact hx1)
        (by rw [hnew]; exact hreach) (le_trans (le_of_eq hmax.symm) hfuel)
    have hpx : (Ray.new x0 y0 x1 y1).x = x0 := by rw [hnew]
    have hpy : (Ray.new x0 y0 x1 y1).y = y0 := by rw [hnew]
    have hpsx : (Ray.new x0 y0 x1 y1).sx = (if x1 < x0 then -1 else 1) := by rw [hnew]
    have hgetx : ∀ i, i < (x1 - x0).natAbs →
        (((ray_run fuel (Ray.new x0 y0 x1 y1)).1[i]?).map Prod.fst)
          = some (x0 + i * (if x1 < x0 then -1 else 1)) := by
      intro i hi
      have := hget i hi
      rw [hpx, hpsx] at this
      exact this
    refine ⟨by rw [hmax]; exact hlen, hdone, ?_, ?_, fun _ => by rw [hmax]; exact hgetx,
      fun h => absurd hmaj h, rfl⟩
    · intro hpos
      have := hhead (by rw [hmax] at hpos; exact hpos)
      rw [hpx, hpy] at this
      exact this
    · intro hmem
      obtain ⟨i, hsome⟩ := List.mem_iff_getElem?.mp hmem
      obtain ⟨hl, -⟩ := List.getElem?_eq_some.mp hsome
      rw [hlen] at hl
      have := hgetx i hl
      rw [hsome] at this
      simp only [Option.map_some', Option.some.injEq] at this
      have heq : x0 + ((x1 - x0).natAbs : ℤ) * (if x1 < x0 then -1 else 1)
          = x0 + (i : ℤ) * (if x1 < x0 then -1 else 1) := hx1.symm.trans this
      have heq2 := add_left_cancel heq
      split_ifs at heq2 with h <;> omega
  · -- y-major branch of `Ray::new`
    have hcond : ¬ |y1 - y0| < |x1 - x0| := by
      rw [Int.abs_eq_natAbs, Int.abs_eq_natAbs]
      exact_mod_cast hmaj
    have hmax : max (x1 - x0).natAbs (y1 - y0).natAbs = (y1 - y0).natAbs :=
      Nat.max_eq_right (le_of_not_lt hmaj)
    have hnew : Ray.new x0 y0 x1 y1
        = ⟨x0, y0, x1, y1, decide (y0 = y1), if x1 < x0 then -1 else 1,
           if y1 < y0 then -1 else 1, |x1 - x0|, |y1 - y0|, -|y1 - y0|, x0, y0, Axis.Y⟩ := by
      rw [Ray.new]
      simp [hcond]
    have hsy : ((if y1 < y0 then (-1 : ℤ) else 1) = 1 ∨ (if y1 < y0 then (-1 : ℤ) else 1) = -1) := by
      split_ifs <;> simp
    have hy1 : y1 = y0 + ((y1 - y0).natAbs : ℤ) * (if y1 < y0 then -1 else 1) := by
      split_ifs with h <;> omega
    have hreach : decide (y0 = y1) = decide ((y1 - y0).natAbs = 0) := by
      simp only [decide_eq_decide]
      omega
    obtain ⟨hlen, hdone, hget, hhead⟩ :=
      ray_run_iter_y (y1 - y0).natAbs (Ray.new x0 y0 x1 y1) fuel
        (by rw [hnew]) (by rw [hnew]; exact hsy) (by rw [hnew]; exact hy1)
        (by rw [hnew]; exact hreach) (le_trans (le_of_eq hmax.symm) hfuel)
    have hpx : (Ray.new x0 y0 x1 y1).x = x0 := by rw [hnew]
    have hpy : (Ray.new x0 y0 x1 y1).y = y0 := by rw [hnew]
    have hpsy : (Ray.new x0 y0 x1 y1).sy = (if y1 < y0 then -1 else 1) := by rw [hnew]
    have hgety : ∀ i, i < (y1 - y0).natAbs →
        (((ray_run fuel (Ray.new x0 y0 x1 y1)).1[i]?).map Prod.snd)
          = some (y0 + i * (if y1 < y0 then -1 else 1)) := by
      intro i hi
      have := hget i hi
      rw [hpy, hpsy] at this
      exact this
    refine ⟨by rw [hmax]; exact hlen, hdone, ?_, ?_, fun h => absurd h hmaj,
      fun _ => by rw [hmax]; exact hgety, rfl⟩
    · intro hpos
      have := hhead (by rw [hmax] at hpos; exact hpos)
      rw [hpx, hpy] at this
      exact this
    · intro hmem
      obtain ⟨i, hsome⟩ := List.mem_iff_getElem?.mp hmem
      obtain ⟨hl, -⟩ := List.getElem?_eq_some.mp hsome
      rw [hlen] at hl
      have := hgety i hl
      rw [hsome] at this
      simp only [Option.map_some', Option.some.injEq] at this
      have heq : y0 + ((y1 - y0).natAbs : ℤ) * (if y1 < y0 then -1 else 1)
          = y0 + (i : ℤ) * (if y1 < y0 then -1 else 1) := hy1.symm.trans this
      have heq2 := add_left_cancel heq
      split_ifs at heq2 with h <;> omega

/-- `read_line` splits at the first newline. -/
theorem read_line_append (l r : List ℕ) (hl : ∀ c ∈ l, c ≠ 10) :
    read_line (l ++ 10 :: r) = (l ++ [10], r) := by
  induction l with
  | nil => simp [read_line]
  | cons a t ih =>
    have ha : a ≠ 10 := hl a (List.mem_cons_self a t)
    rw [List.cons_append, read_line]
    simp only [if_neg ha, ih (fun c hc => hl c (List.mem_cons_of_mem a hc))]
    simp

/-- `split_ws_go` absorbs a whitespace-free prefix into the accumulator. -/
theorem split_ws_go_token (t : List ℕ) (hns : ∀ c ∈ t, isWs c = false) :
    ∀ acc rest, split_ws_go acc (t ++ rest) = split_ws_go (t.reverse ++ acc) rest := by
  induction t with
  | nil => intro acc rest; simp
  | cons a tl ih =>
    intro acc rest
    have ha : isWs a = false := hns a (List.mem_cons_self a tl)
    rw [List.cons_append, split_ws_go, if_neg (by simp [ha])]
    rw [ih (fun c hc => hns c (List.mem_cons_of_mem a hc)) (a :: acc) rest]
    simp

/-- Tokenizing the second header line `"{w} {h} 255\n"`. -/
theorem split_ws_header_line (t1 t2 : List ℕ)
    (h1 : ∀ c ∈ t1, isWs c = false) (h2 : ∀ c ∈ t2, isWs c = false)
    (h1n : t1 ≠ []) (h2n : t2 ≠ []) :
    split_ws (t1 ++ ((32 :: t2) ++ [32, 50, 53, 53, 10])) = [t1, t2, [50, 53, 53]] := by
  rw [split_ws, split_ws_go_token t1 h1, List.cons_append, List.append_nil, split_ws_go]
  rw [if_pos (show isWs 32 = true from rfl)]
  rw [if_neg (show ¬ t1.reverse.isEmpty = true by simp [List.isEmpty_iff, h1n])]
  rw [List.reverse_reverse]
  rw [split_ws_go_token t2 h2, List.append_nil]
  rw [show ([32, 50, 53, 53, 10] : List ℕ) = 32 :: [50, 53, 53, 10] from rfl, split_ws_go]
  rw [if_pos (show isWs 32 = true from rfl)]
  rw [if_neg (show ¬ t2.reverse.isEmpty = true by simp [List.isEmpty_iff, h2n])]
  rw [List.reverse_reverse]
  rfl

/-- The most-significant-first digit fold computes `ofDigits`. -/
theorem foldr_digits_ofDigits (l : List ℕ) :
    l.foldr (fun d acc => acc * 10 + d) 0 = Nat.ofDigits 10 l := by
  induction l with
  | nil => simp [Nat.ofDigits_nil]
  | cons d tl ih => rw [List.foldr_cons, ih, Nat.ofDigits_cons]; ring

/-- Every byte of a rendered decimal is an ASCII digit. -/
theorem nat_to_dec_digits (n : ℕ) : ∀ c ∈ nat_to_dec n, 48 ≤ c ∧ c ≤ 57 := by
  intro c hc
  rw [nat_to_dec] at hc
  split_ifs at hc with h
  · simp at hc; omega
  · simp only [List.mem_map, List.mem_reverse] at hc
    obtain ⟨d, hd, rfl⟩ := hc
    have := Nat.digits_lt_base (by norm_num) hd
    omega

/-- ASCII digits are not whitespace. -/
theorem nat_to_dec_not_ws (n : ℕ) : ∀ c ∈ nat_to_dec n, isWs c = false := by
  intro c hc
  have := nat_to_dec_digits n c hc
  simp only [isWs, Bool.or_eq_false_iff, beq_eq_false_iff_ne, ne_eq]
  omega

/-- A rendered decimal is nonempty. -/
theorem nat_to_dec_ne_nil (n : ℕ) : nat_to_dec n ≠ [] := by
  rw [nat_to_dec]
  split_ifs with h
  · simp
  · simp [Nat.digits_ne_nil_iff_ne_zero.mpr h]

/-- Print-then-parse round trip for `u32` decimals. -/
theorem parse_nat_to_dec (n : ℕ) (hn : n < 2 ^ 32) :
    parse_u32 (nat_to_dec n) = some n := by
  have hval : (nat_to_dec n).foldl (fun acc c => acc * 10 + (c - 48)) 0 = n := by
    rw [nat_to_dec]
    split_ifs with h
    · simp [h]
    · rw [List.foldl_map]
      have hfun : (fun (acc d : ℕ) => acc * 10 + (d + 48 - 48))
          = (fun (acc d : ℕ) => acc * 10 + d) := by
        funext acc d
        omega
      rw [hfun, List.foldl_reverse, foldr_digits_ofDigits, Nat.ofDigits_digits]
  rw [parse_u32]
  rw [if_neg (by simp [nat_to_dec_ne_nil n]), if_pos ?hdig]
  case hdig =>
    rw [List.all_eq_true]
    intro c hc
    have := nat_to_dec_digits n c hc
    simp only [Bool.and_eq_true, decide_eq_true_eq]
    omega
  simp only [hval, if_pos hn]

/-- Parsing the literal max-value token `"255"`. -/
theorem parse_255 : parse_u32 [50, 53, 53] = some 255 := by rfl

/-- A bitwise OR of a shifted block with a value below the shift is the
sum. -/
theorem or_add_form (k a b : ℕ) (hb : b < 2 ^ k) : (2 ^ k * a) ||| b = 2 ^ k * a + b := by
  apply Nat.eq_of_testBit_eq
  intro j
  rw [Nat.testBit_lor, Nat.testBit_mul_pow_two_add a hb j]
  by_cases hj : j < k
  · rw [if_pos hj]
    have hleft : Nat.testBit (2 ^ k * a) j = false := by
      rw [mul_comm, ← Nat.shiftLeft_eq, Nat.testBit_shiftLeft]
      simp [Nat.not_le.mpr hj]
    rw [hleft, Bool.false_or]
  · rw [if_neg hj]
    have hbf : Nat.testBit b j = false :=
      Nat.testBit_lt_two_pow
        (lt_of_lt_of_le hb (Nat.pow_le_pow_right (by norm_num) (le_of_not_lt hj)))
    have hleft : Nat.testBit (2 ^ k * a) j = Nat.testBit a (j - k) := by
      rw [mul_comm, ← Nat.shiftLeft_eq, Nat.testBit_shiftLeft]
      simp [Nat.le_of_not_lt hj]
    rw [hleft, hbf, Bool.or_false]

/-- The pixel a loader reconstructs from the three bytes the saver wrote
keeps the low 24 bits and forces alpha `0xff`. -/
theorem pixel_reassemble (p : ℕ) :
    (((0xff000000 ||| (((p &&& 0xff) &&& 0xff) <<< (8 * 0))) |||
      ((((p >>> 8) &&& 0xff) &&& 0xff) <<< (8 * 1))) |||
      ((((p >>> (8 * 2)) &&& 0xff) &&& 0xff) <<< (8 * 2)))
      = 255 * 2 ^ 24 + p % 2 ^ 24 := by
  have hmask : ∀ x : ℕ, x &&& 0xff = x % 2 ^ 8 := by
    intro x
    have : (0xff : ℕ) = 2 ^ 8 - 1 := by norm_num
    rw [this, Nat.and_pow_two_sub_one_eq_mod]
  have hb0 : (p &&& 0xff) &&& 0xff = p % 2 ^ 8 := by rw [hmask, hmask, Nat.mod_mod]
  have hb1 : ((p >>> 8) &&& 0xff) &&& 0xff = p / 2 ^ 8 % 2 ^ 8 := by
    rw [hmask, hmask, Nat.mod_mod, Nat.shiftRight_eq_div_pow]
  have hb2 : ((p >>> (8 * 2)) &&& 0xff) &&& 0xff = p / 2 ^ 16 % 2 ^ 8 := by
    rw [hmask, hmask, Nat.mod_mod, Nat.shiftRight_eq_div_pow]
  rw [hb0, hb1, hb2]
  rw [Nat.shiftLeft_eq, Nat.shiftLeft_eq, Nat.shiftLeft_eq]
  set b0 := p % 2 ^ 8 with hb0d
  set b1 := p / 2 ^ 8 % 2 ^ 8 with hb1d
  set b2 := p / 2 ^ 16 % 2 ^ 8 with hb2d
  have hlt0 : b0 < 2 ^ 8 := Nat.mod_lt _ (by norm_num)
  have hlt1 : b1 < 2 ^ 8 := Nat.mod_lt _ (by norm_num)
  have hlt2 : b2 < 2 ^ 8 := Nat.mod_lt _ (by norm_num)
  rw [Nat.lor_assoc, Nat.lor_assoc]
  have hinner : b1 * 2 ^ (8 * 1) ||| b2 * 2 ^ (8 * 2) = 2 ^ 16 * b2 + 2 ^ 8 * b1 := by
    rw [Nat.lor_comm]
    rw [show b2 * 2 ^ (8 * 2) = 2 ^ 16 * b2 by ring, show b1 * 2 ^ (8 * 1) = 2 ^ 8 * b1 by ring]
    exact or_add_form 16 b2 (2 ^ 8 * b1) (by omega)
  rw [hinner]
  have hmid : b0 * 2 ^ (8 * 0) ||| (2 ^ 16 * b2 + 2 ^ 8 * b1)
      = 2 ^ 8 * (2 ^ 8 * b2 + b1) + b0 := by
    rw [Nat.lor_comm]
    rw [show 2 ^ 16 * b2 + 2 ^ 8 * b1 = 2 ^ 8 * (2 ^ 8 * b2 + b1) by ring,
      show b0 * 2 ^ (8 * 0) = b0 by ring]
    exact or_add_form 8 (2 ^ 8 * b2 + b1) b0 hlt0
  rw [hmid]
  have houter : (0xff000000 : ℕ) ||| (2 ^ 8 * (2 ^ 8 * b2 + b1) + b0)
      = 2 ^ 24 * 255 + (2 ^ 8 * (2 ^ 8 * b2 + b1) + b0) := by
    rw [show (0xff000000 : ℕ) = 2 ^ 24 * 255 by norm_num]
    exact or_add_form 24 255 _ (by omega)
  rw [houter]
  omega

/-- First header iteration on saved bytes: consuming the `"P6\n"` line. -/
theorem header_step1 (f w0 h0 m0 : ℕ) (rest : List ℕ) :
    header_loop (f + 1) NowReading.magicNumber w0 h0 m0 (80 :: 54 :: 10 :: rest)
      = header_loop f NowReading.width w0 h0 m0 rest := by
  have hrl : read_line (80 :: 54 :: 10 :: rest) = ([80, 54, 10], rest) := by
    rw [read_line, if_neg (by norm_num), read_line, if_neg (by norm_num), read_line,
      if_pos rfl]
  rw [header_loop, if_neg (by simp)]
  simp only [hrl]
  rfl

/-- Second header iteration on saved bytes: consuming the
`"{w} {h} 255\n"` line. -/
theorem header_step2 (f wd ht : ℕ) (hw : wd < 2 ^ 32) (hh : ht < 2 ^ 32)
    (w0 h0 m0 : ℕ) (body : List ℕ) :
    header_loop (f + 1) NowReading.width w0 h0 m0
      ((nat_to_dec wd ++ ((32 :: nat_to_dec ht) ++ [32, 50, 53, 53])) ++ 10 :: body)
      = header_loop f NowReading.data wd ht 255 body := by
  have hno10 : ∀ c ∈ nat_to_dec wd ++ ((32 :: nat_to_dec ht) ++ [32, 50, 53, 53]), c ≠ 10 := by
    intro c hc heq
    subst heq
    rcases List.mem_append.mp hc with h | h
    · have := nat_to_dec_digits wd 10 h
      omega
    · rcases List.mem_append.mp h with h | h
      · rcases List.mem_cons.mp h with h | h
        · exact absurd h (by norm_num)
        · have := nat_to_dec_digits ht 10 h
          omega
      · exact absurd h (by decide)
  have hrl := read_line_append _ body hno10
  have hsplit := split_ws_header_line (nat_to_dec wd) (nat_to_dec ht)
    (nat_to_dec_not_ws wd) (nat_to_dec_not_ws ht) (nat_to_dec_ne_nil wd) (nat_to_dec_ne_nil ht)
  have hshape : (nat_to_dec wd ++ ((32 :: nat_to_dec ht) ++ [32, 50, 53, 53])) ++ [10]
      = nat_to_dec wd ++ ((32 :: nat_to_dec ht) ++ [32, 50, 53, 53, 10]) := by
    simp [List.append_assoc]
  rw [header_loop, if_neg (by simp)]
  simp only [hrl, hshape, hsplit, process_tokens, parse_nat_to_dec wd hw,
    parse_nat_to_dec ht hh, parse_255]

/-- Final header iteration: the state machine reached `Data`. -/
theorem header_step3 (f w h m : ℕ) (input : List ℕ) :
    header_loop (f + 1) NowReading.data w h m input = some (w, h, m, input) := by
  rw [header_loop, if_pos rfl]

/-- The header of a saved PPM parses back to its width, height and 255,
leaving exactly the pixel bytes. -/
theorem header_loop_saved (wd ht : ℕ) (hw : wd < 2 ^ 32) (hh : ht < 2 ^ 32)
    (body : List ℕ) (f : ℕ) :
    header_loop (f + 3) NowReading.magicNumber 0 0 0
      ([80, 54, 10] ++ nat_to_dec wd ++ [32] ++ nat_to_dec ht ++ [32, 50, 53, 53, 10] ++ body)
      = some (wd, ht, 255, body) := by
  have hshape : [80, 54, 10] ++ nat_to_dec wd ++ [32] ++ nat_to_dec ht
        ++ [32, 50, 53, 53, 10] ++ body
      = 80 :: 54 :: 10 ::
        ((nat_to_dec wd ++ ((32 :: nat_to_dec ht) ++ [32, 50, 53, 53])) ++ 10 :: body) := by
    simp [List.append_assoc]
  rw [hshape, show f + 3 = (f + 2) + 1 from rfl, header_step1,
    show f + 2 = (f + 1) + 1 from rfl, header_step2 (f + 1) wd ht hw hh, header_step3]

/-- `flatMap` after `map` fuses. -/
theorem flatMap_map_fuse {α β γ : Type} (f : α → β) (g : β → List γ) (l : List α) :
    (l.map f).flatMap g = l.flatMap (fun x => g (f x)) := by
  induction l with
  | nil => rfl
  | cons a t ih => simp [ih]

/-- `flatMap` respects pointwise equality on the list. -/
theorem flatMap_congr_mem {α β : Type} (l : List α) (f g : α → List β)
    (h : ∀ x ∈ l, f x = g x) : l.flatMap f = l.flatMap g := by
  induction l with
  | nil => rfl
  | cons a t ih =>
    rw [List.flatMap_cons, List.flatMap_cons, h a (List.mem_cons_self a t),
      ih (fun x hx => h x (List.mem_cons_of_mem a hx))]

/-- One saved row, indexed through `getD`, is the `flatMap` over the
taken prefix. -/
theorem row_flatMap (g : ℕ → List ℕ) :
    ∀ (w : ℕ) (l : List ℕ), w ≤ l.length →
      (List.range w).flatMap (fun x => g (l.getD x 0)) = (l.take w).flatMap g := by
  intro w
  induction w with
  | zero => intro l _; simp
  | succ n ih =>
    intro l h
    rw [List.range_succ, List.flatMap_append, ih l (by omega), List.take_succ,
      List.flatMap_append]
    congr 1
    simp [List.getElem?_eq_getElem (show n < l.length by omega),
      List.getD_eq_getElem l 0 (show n < l.length by omega)]

/-- The whole saved body, indexed row-major through `getD` with stride
`w`, is the `flatMap` over the buffer. -/
theorem rows_flatMap (g : ℕ → List ℕ) (w : ℕ) :
    ∀ (h : ℕ) (l : List ℕ), l.length = w * h →
      (List.range h).flatMap (fun y =>
        (List.range w).flatMap (fun x => g (l.getD (y * w + x) 0)))
        = l.flatMap g := by
  intro h
  induction h with
  | zero =>
    intro l hl
    rw [Nat.mul_zero] at hl
    rw [List.length_eq_zero.mp hl]
    simp
  | succ n ih =>
    intro l hl
    have hw : w ≤ l.length := by
      rw [hl]
      calc w = w * 1 := by ring
        _ ≤ w * (n + 1) := Nat.mul_le_mul_left w (by omega)
    rw [List.range_succ_eq_map, List.flatMap_cons, flatMap_map_fuse]
    have hrow0 : (List.range w).flatMap (fun x => g (l.getD (0 * w + x) 0))
        = (l.take w).flatMap g := by
      rw [show (fun x => g (l.getD (0 * w + x) 0)) = (fun x => g (l.getD x 0)) by
        funext x; rw [Nat.zero_mul, Nat.zero_add]]
      exact row_flatMap g w l hw
    have hshift : (List.range n).flatMap (fun y =>
          (List.range w).flatMap (fun x => g (l.getD (Nat.succ y * w + x) 0)))
        = (List.range n).flatMap (fun y =>
          (List.range w).flatMap (fun x => g ((l.drop w).getD (y * w + x) 0))) := by
      apply flatMap_congr_mem
      intro y _
      apply flatMap_congr_mem
      intro x _
      have : (l.drop w).getD (y * w + x) 0 = l.getD (w + (y * w + x)) 0 := by
        simp [List.getD, List.getElem?_drop]
      rw [this]
      have harg : Nat.succ y * w + x = w + (y * w + x) := by
        rw [Nat.succ_eq_add_one]
        ring
      rw [harg]
    have hdroplen : (l.drop w).length = w * n := by
      rw [List.length_drop, hl]
      have : w * (n + 1) = w * n + w := by ring
      omega
    rw [hrow0, hshift, ih (l.drop w) hdroplen]
    rw [← List.flatMap_append, List.take_append_drop]

/-- Reading back the concatenated per-pixel byte triples reassembles
each pixel with its low 24 bits intact and alpha forced to `0xff`. -/
theorem read_pixels_flatMap (l : List ℕ) :
    read_pixels (l.flatMap pix_bytes) = l.map (fun p => 255 * 2 ^ 24 + p % 2 ^ 24) := by
  induction l with
  | nil => rfl
  | cons p t ih =>
    rw [List.flatMap_cons, show pix_bytes p ++ t.flatMap pix_bytes
        = (p &&& 0xff) :: ((p >>> 8) &&& 0xff) :: ((p >>> (8 * 2)) &&& 0xff)
          :: t.flatMap pix_bytes from rfl]
    rw [read_pixels, ih, List.map_cons]
    congr 1
    exact pixel_reassemble p

/-- C8: saving a `width*height` pixel buffer (stride = width) and
reloading the produced bytes yields an image with the same width and
height whose every pixel agrees with the original on the low three
bytes (R, G, B), while the alpha byte of every reloaded pixel is
`0xff`. -/
theorem ppm_round_trip (buffer : List ℕ) (wd ht : ℕ)
    (hlen : buffer.length = wd * ht) (hw : wd < 2 ^ 32) (hh : ht < 2 ^ 32) :
    ∃ img : Image,
      load_ppm_file_to_buffer (save_buffer_to_ppm_file buffer wd ht wd) = some img ∧
      img.width = wd ∧ img.height = ht ∧ img.buffer.length = buffer.length ∧
      ∀ i, i < buffer.length →
        (img.buffer.getD i 0) % 2 ^ 8 = (buffer.getD i 0) % 2 ^ 8 ∧
        (img.buffer.getD i 0) / 2 ^ 8 % 2 ^ 8 = (buffer.getD i 0) / 2 ^ 8 % 2 ^ 8 ∧
        (img.buffer.getD i 0) / 2 ^ 16 % 2 ^ 8 = (buffer.getD i 0) / 2 ^ 16 % 2 ^ 8 ∧
        (img.buffer.getD i 0) / 2 ^ 24 = 255 := by
  have hbody : (List.range ht).flatMap (fun y =>
      (List.range wd).flatMap (fun x => pix_bytes (buffer.getD (y * wd + x) 0)))
      = buffer.flatMap pix_bytes := rows_flatMap pix_bytes wd ht buffer hlen
  refine ⟨⟨buffer.map (fun p => 255 * 2 ^ 24 + p % 2 ^ 24), wd, ht⟩, ?_, rfl, rfl, by simp, ?_⟩
  · have h9 : 2 ≤ (save_buffer_to_ppm_file buffer wd ht wd).length := by
      rw [save_buffer_to_ppm_file]
      simp [List.length_append]
    obtain ⟨k, hk⟩ : ∃ k, (save_buffer_to_ppm_file buffer wd ht wd).length + 1 = k + 3 :=
      ⟨(save_buffer_to_ppm_file buffer wd ht wd).length - 2, by omega⟩
    rw [load_ppm_file_to_buffer, hk]
    rw [show save_buffer_to_ppm_file buffer wd ht wd
        = [80, 54, 10] ++ nat_to_dec wd ++ [32] ++ nat_to_dec ht ++ [32, 50, 53, 53, 10] ++
          (List.range ht).flatMap (fun y =>
            (List.range wd).flatMap (fun x => pix_bytes (buffer.getD (y * wd + x) 0)))
        from rfl]
    rw [header_loop_saved wd ht hw hh _ k]
    simp only [hbody, read_pixels_flatMap]
    rw [if_pos (by rw [List.length_map, hlen])]
  · intro i hi
    have hg : (buffer.map (fun p => 255 * 2 ^ 24 + p % 2 ^ 24)).getD i 0
        = 255 * 2 ^ 24 + (buffer.getD i 0) % 2 ^ 24 := by
      rw [List.getD_eq_getElem _ _ (by simpa using hi), List.getElem_map,
        List.getD_eq_getElem _ _ hi]
    rw [hg]
    have h8 : (2 : ℕ) ^ 8 = 256 := by norm_num
    have h16 : (2 : ℕ) ^ 16 = 65536 := by norm_num
    have h24 : (2 : ℕ) ^ 24 = 16777216 := by norm_num
    rw [h8, h16, h24]
    refine ⟨by omega, by omega, by omega, by omega⟩

/-- Witness for C8 on a concrete 2×1 buffer. -/
theorem ppm_round_trip_witness :
    ([305419896, 2882400001] : List ℕ).length = 2 * 1 ∧ 2 < 2 ^ 32 ∧ 1 < 2 ^ 32 ∧
    ∃ img : Image,
      load_ppm_file_to_buffer (save_buffer_to_ppm_file [305419896, 2882400001] 2 1 2)
        = some img ∧
      img.width = 2 ∧ img.height = 1 ∧
      img.buffer.length = ([305419896, 2882400001] : List ℕ).length ∧
      ∀ i, i < ([305419896, 2882400001] : List ℕ).length →
        (img.buffer.getD i 0) % 2 ^ 8 = (([305419896, 2882400001] : List ℕ).getD i 0) % 2 ^ 8 ∧
        (img.buffer.getD i 0) / 2 ^ 8 % 2 ^ 8
            = (([305419896, 2882400001] : List ℕ).getD i 0) / 2 ^ 8 % 2 ^ 8 ∧
        (img.buffer.getD i 0) / 2 ^ 16 % 2 ^ 8
            = (([305419896, 2882400001] : List ℕ).getD i 0) / 2 ^ 16 % 2 ^ 8 ∧
        (img.buffer.getD i 0) / 2 ^ 24 = 255 :=
  ⟨by decide, by decide, by decide,
    ppm_round_trip [305419896, 2882400001] 2 1 (by decide) (by decide) (by decide)⟩

/-- Witness for C6: the segment from `(0, 0)` to `(3, 1)` yields exactly
`max(3, 1) = 3` loop coordinates. -/
theorem ray_yields_major_axis_steps_witness :
    max ((3 : ℤ) - 0).natAbs ((1 : ℤ) - 0).natAbs ≤ 3 ∧
    (ray_run 3 (Ray.new 0 0 3 1)).1.length = max ((3 : ℤ) - 0).natAbs ((1 : ℤ) - 0).natAbs ∧
    ((3 : ℤ), (1 : ℤ)) ∉ (ray_run 3 (Ray.new 0 0 3 1)).1 := by
  have h := ray_yields_major_axis_steps 0 0 3 1 3 (by decide)
  exact ⟨by decide, h.1, h.2.2.2.1⟩

/-- The horizontal code takes one of three values. -/
theorem hcode_mem (x_min x_max x : ℚ) :
    hcode x_min x_max x = 0 ∨ hcode x_min x_max x = 1 ∨ hcode x_min x_max x = 2 := by
  unfold hcode
  split_ifs <;> simp

/-- The vertical code takes one of three values. -/
theorem vcode_mem (y_min y_max y : ℚ) :
    vcode y_min y_max y = 0 ∨ vcode y_min y_max y = 4 ∨ vcode y_min y_max y = 8 := by
  unfold vcode
  split_ifs <;> simp

theorem hcode_eq_zero_iff (x_min x_max x : ℚ) :
    hcode x_min x_max x = 0 ↔ x_min ≤ x ∧ x ≤ x_max := by
  unfold hcode
  split_ifs with h1 h2
  · exact iff_of_false (by norm_num) (fun h => absurd h.1 (not_le.mpr h1))
  · exact iff_of_false (by norm_num) (fun h => absurd h.2 (not_le.mpr h2))
  · exact iff_of_true rfl ⟨le_of_not_lt h1, le_of_not_lt h2⟩

theorem hcode_eq_one_iff (x_min x_max x : ℚ) : hcode x_min x_max x = 1 ↔ x < x_min := by
  unfold hcode
  split_ifs with h1 h2
  · exact iff_of_true rfl h1
  · exact iff_of_false (by norm_num) h1
  · exact iff_of_false (by norm_num) h1

theorem hcode_eq_two_iff (x_min x_max x : ℚ) :
    hcode x_min x_max x = 2 ↔ ¬ x < x_min ∧ x_max < x := by
  unfold hcode
  split_ifs with h1 h2
  · exact iff_of_false (by norm_num) (fun h => h.1 h1)
  · exact iff_of_true rfl ⟨h1, h2⟩
  · exact iff_of_false (by norm_num) (fun h => absurd h.2 h2)

theorem hcode_ne_two_le (x_min x_max x : ℚ) (hrect : x_min ≤ x_max)
    (h : hcode x_min x_max x ≠ 2) : x ≤ x_max := by
  unfold hcode at h
  split_ifs at h with h1 h2
  · linarith
  · exact absurd rfl h
  · exact le_of_not_lt h2

theorem hcode_ne_one_ge (x_min x_max x : ℚ) (h : hcode x_min x_max x ≠ 1) : x_min ≤ x := by
  unfold hcode at h
  split_ifs at h with h1 h2
  · exact absurd rfl h
  · linarith
  · exact le_of_not_lt h1

theorem vcode_eq_zero_iff (y_min y_max y : ℚ) :
    vcode y_min y_max y = 0 ↔ y_min ≤ y ∧ y ≤ y_max := by
  unfold vcode
  split_ifs with h1 h2
  · exact iff_of_false (by norm_num) (fun h => absurd h.1 (not_le.mpr h1))
  · exact iff_of_false (by norm_num) (fun h => absurd h.2 (not_le.mpr h2))
  · exact iff_of_true rfl ⟨le_of_not_lt h1, le_of_not_lt h2⟩

theorem vcode_eq_four_iff (y_min y_max y : ℚ) : vcode y_min y_max y = 4 ↔ y < y_min := by
  unfold vcode
  split_ifs with h1 h2
  · exact iff_of_true rfl h1
  · exact iff_of_false (by norm_num) h1
  · exact iff_of_false (by norm_num) h1

theorem vcode_eq_eight_iff (y_min y_max y : ℚ) :
    vcode y_min y_max y = 8 ↔ ¬ y < y_min ∧ y_max < y := by
  unfold vcode
  split_ifs with h1 h2
  · exact iff_of_false (by norm_num) (fun h => h.1 h1)
  · exact iff_of_true rfl ⟨h1, h2⟩
  · exact iff_of_false (by norm_num) (fun h => absurd h.2 h2)

theorem vcode_ne_eight_le (y_min y_max y : ℚ) (hrect : y_min ≤ y_max)
    (h : vcode y_min y_max y ≠ 8) : y ≤ y_max := by
  unfold vcode at h
  split_ifs at h with h1 h2
  · linarith
  · exact absurd rfl h
  · exact le_of_not_lt h2

theorem vcode_ne_four_ge (y_min y_max y : ℚ) (h : vcode y_min y_max y ≠ 4) : y_min ≤ y := by
  unfold vcode at h
  split_ifs at h with h1 h2
  · exact absurd rfl h
  · linarith
  · exact le_of_not_lt h1

theorem merged_or_eq_zero (h1 v1 h2 v2 : ℕ)
    (hh1 : h1 = 0 ∨ h1 = 1 ∨ h1 = 2) (hv1 : v1 = 0 ∨ v1 = 4 ∨ v1 = 8)
    (hh2 : h2 = 0 ∨ h2 = 1 ∨ h2 = 2) (hv2 : v2 = 0 ∨ v2 = 4 ∨ v2 = 8) :
    (h1 ||| v1) ||| (h2 ||| v2) = 0 ↔ h1 = 0 ∧ v1 = 0 ∧ h2 = 0 ∧ v2 = 0 := by
  rcases hh1 with rfl | rfl | rfl <;> rcases hv1 with rfl | rfl | rfl <;>
    rcases hh2 with rfl | rfl | rfl <;> rcases hv2 with rfl | rfl | rfl <;> decide

theorem merged_and_shared (h1 v1 h2 v2 : ℕ)
    (hh1 : h1 = 0 ∨ h1 = 1 ∨ h1 = 2) (hv1 : v1 = 0 ∨ v1 = 4 ∨ v1 = 8)
    (hh2 : h2 = 0 ∨ h2 = 1 ∨ h2 = 2) (hv2 : v2 = 0 ∨ v2 = 4 ∨ v2 = 8)
    (hAND : (h1 ||| v1) &&& (h2 ||| v2) ≠ 0) :
    (h1 = 1 ∧ h2 = 1) ∨ (h1 = 2 ∧ h2 = 2) ∨ (v1 = 4 ∧ v2 = 4) ∨ (v1 = 8 ∧ v2 = 8) := by
  rcases hh1 with rfl | rfl | rfl <;> rcases hv1 with rfl | rfl | rfl <;>
    rcases hh2 with rfl | rfl | rfl <;> rcases hv2 with rfl | rfl | rfl <;>
    revert hAND <;> decide

theorem merged_some_branch (h1 v1 h2 v2 : ℕ)
    (hh1 : h1 = 0 ∨ h1 = 1 ∨ h1 = 2) (hv1 : v1 = 0 ∨ v1 = 4 ∨ v1 = 8)
    (hh2 : h2 = 0 ∨ h2 = 1 ∨ h2 = 2) (hv2 : v2 = 0 ∨ v2 = 4 ∨ v2 = 8)
    (hOR : ¬ (h1 ||| v1) ||| (h2 ||| v2) = 0) :
    max (h1 ||| v1) (h2 ||| v2) ≠ 0 ∧
    (max (h1 ||| v1) (h2 ||| v2) &&& 8 ≠ 0 ∨ max (h1 ||| v1) (h2 ||| v2) &&& 4 ≠ 0 ∨
      max (h1 ||| v1) (h2 ||| v2) &&& 2 ≠ 0 ∨ max (h1 ||| v1) (h2 ||| v2) &&& 1 ≠ 0) := by
  rcases hh1 with rfl | rfl | rfl <;> rcases hv1 with rfl | rfl | rfl <;>
    rcases hh2 with rfl | rfl | rfl <;> rcases hv2 with rfl | rfl | rfl <;>
    revert hOR <;> decide

theorem merged_top_sel (h1 v1 h2 v2 : ℕ)
    (hh1 : h1 = 0 ∨ h1 = 1 ∨ h1 = 2) (hv1 : v1 = 0 ∨ v1 = 4 ∨ v1 = 8)
    (hh2 : h2 = 0 ∨ h2 = 1 ∨ h2 = 2) (hv2 : v2 = 0 ∨ v2 = 4 ∨ v2 = 8)
    (hAND : (h1 ||| v1) &&& (h2 ||| v2) = 0)
    (hTop : max (h1 ||| v1) (h2 ||| v2) &&& 8 ≠ 0) :
    (h1 ||| v1 = max (h1 ||| v1) (h2 ||| v2) → v1 = 8 ∧ v2 ≠ 8) ∧
    (¬ h1 ||| v1 = max (h1 ||| v1) (h2 ||| v2) → v2 = 8 ∧ v1 ≠ 8) := by
  rcases hh1 with rfl | rfl | rfl <;> rcases hv1 with rfl | rfl | rfl <;>
    rcases hh2 with rfl | rfl | rfl <;> rcases hv2 with rfl | rfl | rfl <;>
    revert hAND hTop <;> decide

theorem merged_bottom_sel (h1 v1 h2 v2 : ℕ)
    (hh1 : h1 = 0 ∨ h1 = 1 ∨ h1 = 2) (hv1 : v1 = 0 ∨ v1 = 4 ∨ v1 = 8)
    (hh2 : h2 = 0 ∨ h2 = 1 ∨ h2 = 2) (hv2 : v2 = 0 ∨ v2 = 4 ∨ v2 = 8)
    (hAND : (h1 ||| v1) &&& (h2 ||| v2) = 0)
    (hTop : max (h1 ||| v1) (h2 ||| v2) &&& 8 = 0)
    (hBot : max (h1 ||| v1) (h2 ||| v2) &&& 4 ≠ 0) :
    (h1 ||| v1 = max (h1 ||| v1) (h2 ||| v2) → v1 = 4 ∧ v2 = 0) ∧
    (¬ h1 ||| v1 = max (h1 ||| v1) (h2 ||| v2) → v2 = 4 ∧ v1 = 0) := by
  rcases hh1 with rfl | rfl | rfl <;> rcases hv1 with rfl | rfl | rfl <;>
    rcases hh2 with rfl | rfl | rfl <;> rcases hv2 with rfl | rfl | rfl <;>
    revert hAND hTop hBot <;> decide

theorem merged_right_sel (h1 v1 h2 v2 : ℕ)
    (hh1 : h1 = 0 ∨ h1 = 1 ∨ h1 = 2) (hv1 : v1 = 0 ∨ v1 = 4 ∨ v1 = 8)
    (hh2 : h2 = 0 ∨ h2 = 1 ∨ h2 = 2) (hv2 : v2 = 0 ∨ v2 = 4 ∨ v2 = 8)
    (hAND : (h1 ||| v1) &&& (h2 ||| v2) = 0)
    (hTop : max (h1 ||| v1) (h2 ||| v2) &&& 8 = 0)
    (hBot : max (h1 ||| v1) (h2 ||| v2) &&& 4 = 0)
    (hR : max (h1 ||| v1) (h2 ||| v2) &&& 2 ≠ 0) :
    v1 = 0 ∧ v2 = 0 ∧
    (h1 ||| v1 = max (h1 ||| v1) (h2 ||| v2) → h1 = 2 ∧ h2 ≠ 2) ∧
    (¬ h1 ||| v1 = max (h1 ||| v1) (h2 ||| v2) → h2 = 2 ∧ h1 ≠ 2) := by
  rcases hh1 with rfl | rfl | rfl <;> rcases hv1 with rfl | rfl | rfl <;>
    rcases hh2 with rfl | rfl | rfl <;> rcases hv2 with rfl | rfl | rfl <;>
    revert hAND hTop hBot hR <;> decide

theorem merged_left_sel (h1 v1 h2 v2 : ℕ)
    (hh1 : h1 = 0 ∨ h1 = 1 ∨ h1 = 2) (hv1 : v1 = 0 ∨ v1 = 4 ∨ v1 = 8)
    (hh2 : h2 = 0 ∨ h2 = 1 ∨ h2 = 2) (hv2 : v2 = 0 ∨ v2 = 4 ∨ v2 = 8)
    (hAND : (h1 ||| v1) &&& (h2 ||| v2) = 0)
    (hTop : max (h1 ||| v1) (h2 ||| v2) &&& 8 = 0)
    (hBot : max (h1 ||| v1) (h2 ||| v2) &&& 4 = 0)
    (hR : max (h1 ||| v1) (h2 ||| v2) &&& 2 = 0)
    (hL : max (h1 ||| v1) (h2 ||| v2) &&& 1 ≠ 0) :
    v1 = 0 ∧ v2 = 0 ∧
    (h1 ||| v1 = max (h1 ||| v1) (h2 ||| v2) → h1 = 1 ∧ h2 ≠ 1) ∧
    (¬ h1 ||| v1 = max (h1 ||| v1) (h2 ||| v2) → h2 = 1 ∧ h1 ≠ 1) := by
  rcases hh1 with rfl | rfl | rfl <;> rcases hv1 with rfl | rfl | rfl <;>
    rcases hh2 with rfl | rfl | rfl <;> rcases hv2 with rfl | rfl | rfl <;>
    revert hAND hTop hBot hR hL <;> decide

theorem lvl_merged (h v : ℕ) (hh : h = 0 ∨ h = 1 ∨ h = 2) (hv : v = 0 ∨ v = 4 ∨ v = 8) :
    lvl (h ||| v) = if v = 0 then (if h = 0 then 0 else 1) else 2 := by
  rcases hh with rfl | rfl | rfl <;> rcases hv with rfl | rfl | rfl <;> decide

theorem lvl_le_two (m : ℕ) : lvl m ≤ 2 := by
  unfold lvl
  split_ifs <;> omega

theorem combo_le (c0 c1 B t : ℚ) (h0 : c0 ≤ B) (h1 : c1 ≤ B) (ht0 : 0 ≤ t) (ht1 : t ≤ 1) :
    c0 + t * (c1 - c0) ≤ B := by
  nlinarith [mul_le_mul_of_nonneg_left h1 ht0, mul_le_mul_of_nonneg_left h0
    (show (0 : ℚ) ≤ 1 - t by linarith)]

theorem combo_ge (c0 c1 B t : ℚ) (h0 : B ≤ c0) (h1 : B ≤ c1) (ht0 : 0 ≤ t) (ht1 : t ≤ 1) :
    B ≤ c0 + t * (c1 - c0) := by
  nlinarith [mul_le_mul_of_nonneg_left h1 ht0, mul_le_mul_of_nonneg_left h0
    (show (0 : ℚ) ≤ 1 - t by linarith)]

theorem combo_lt (c0 c1 B t : ℚ) (h0 : c0 < B) (h1 : c1 < B) (ht0 : 0 ≤ t) (ht1 : t ≤ 1) :
    c0 + t * (c1 - c0) < B := by
  rcases eq_or_lt_of_le ht0 with rfl | htpos
  · simpa using h0
  · nlinarith [mul_lt_mul_of_pos_left h1 htpos, mul_le_mul_of_nonneg_left (le_of_lt h0)
      (show (0 : ℚ) ≤ 1 - t by linarith)]

theorem combo_gt (c0 c1 B t : ℚ) (h0 : B < c0) (h1 : B < c1) (ht0 : 0 ≤ t) (ht1 : t ≤ 1) :
    B < c0 + t * (c1 - c0) := by
  rcases eq_or_lt_of_le ht0 with rfl | htpos
  · simpa using h0
  · nlinarith [mul_lt_mul_of_pos_left h1 htpos, mul_le_mul_of_nonneg_left (le_of_lt h0)
      (show (0 : ℚ) ≤ 1 - t by linarith)]

theorem seg_point_zero (l : Line2D) : seg_point l 0 = (l.x0, l.y0) := by
  unfold seg_point
  rw [Prod.mk.injEq]
  constructor <;> ring

theorem seg_point_one (l : Line2D) : seg_point l 1 = (l.x1, l.y1) := by
  unfold seg_point
  rw [Prod.mk.injEq]
  constructor <;> ring

theorem seg_point_compose (l : Line2D) (ta tb s : ℚ) :
    seg_point ⟨(seg_point l ta).1, (seg_point l ta).2,
      (seg_point l tb).1, (seg_point l tb).2⟩ s
      = seg_point l (ta + s * (tb - ta)) := by
  unfold seg_point
  rw [Prod.mk.injEq]
  constructor <;> ring

theorem exists_reparam (ta tb t : ℚ) (h0 : ta ≤ t) (h1 : t ≤ tb) :
    ∃ s : ℚ, 0 ≤ s ∧ s ≤ 1 ∧ ta + s * (tb - ta) = t := by
  rcases eq_or_lt_of_le (le_trans h0 h1) with heq | hlt
  · refine ⟨0, le_refl 0, zero_le_one, ?_⟩
    have ht : t = ta := le_antisymm (heq ▸ h1) h0
    rw [ht]
    ring
  · refine ⟨(t - ta) / (tb - ta), div_nonneg (by linarith) (by linarith), ?_, ?_⟩
    · rw [div_le_one (by linarith)]
      linarith
    · rw [div_mul_cancel₀ _ (show tb - ta ≠ 0 from by linarith)]
      ring

theorem param_between (ta tb s : ℚ) (hta0 : 0 ≤ ta) (hta1 : ta ≤ 1) (htb0 : 0 ≤ tb)
    (htb1 : tb ≤ 1) (hs0 : 0 ≤ s) (hs1 : s ≤ 1) :
    0 ≤ ta + s * (tb - ta) ∧ ta + s * (tb - ta) ≤ 1 := by
  constructor <;> nlinarith

theorem clip_sel_start_upper (c0 c1 B : ℚ) (hs : B < c0) (ho : c1 ≤ B) :
    c1 - c0 ≠ 0 ∧ 0 ≤ (B - c0) / (c1 - c0) ∧ (B - c0) / (c1 - c0) ≤ 1 ∧
    c0 + (B - c0) / (c1 - c0) * (c1 - c0) = B ∧
    (∀ t : ℚ, c0 + t * (c1 - c0) ≤ B → (B - c0) / (c1 - c0) ≤ t) := by
  have hdy : c1 - c0 < 0 := by linarith
  have hne : c1 - c0 ≠ 0 := ne_of_lt hdy
  refine ⟨hne, ?_, ?_, ?_, ?_⟩
  · rw [show B - c0 = -(c0 - B) by ring, show c1 - c0 = -(c0 - c1) by ring, neg_div_neg_eq]
    exact div_nonneg (by linarith) (by linarith)
  · rw [show B - c0 = -(c0 - B) by ring, show c1 - c0 = -(c0 - c1) by ring, neg_div_neg_eq]
    rw [div_le_one (by linarith)]
    linarith
  · field_simp
  · intro t ht
    rw [div_le_iff_of_neg hdy]
    linarith

theorem clip_sel_end_upper (c0 c1 B : ℚ) (hs : B < c1) (ho : c0 ≤ B) :
    c1 - c0 ≠ 0 ∧ 0 ≤ (B - c0) / (c1 - c0) ∧ (B - c0) / (c1 - c0) ≤ 1 ∧
    c0 + (B - c0) / (c1 - c0) * (c1 - c0) = B ∧
    (∀ t : ℚ, c0 + t * (c1 - c0) ≤ B → t ≤ (B - c0) / (c1 - c0)) := by
  have hdy : 0 < c1 - c0 := by linarith
  refine ⟨ne_of_gt hdy, div_nonneg (by linarith) (by linarith), ?_, ?_, ?_⟩
  · rw [div_le_one hdy]
    linarith
  · field_simp
  · intro t ht
    rw [le_div_iff hdy]
    linarith

theorem clip_sel_start_lower (c0 c1 B : ℚ) (hs : c0 < B) (ho : B ≤ c1) :
    c1 - c0 ≠ 0 ∧ 0 ≤ (B - c0) / (c1 - c0) ∧ (B - c0) / (c1 - c0) ≤ 1 ∧
    c0 + (B - c0) / (c1 - c0) * (c1 - c0) = B ∧
    (∀ t : ℚ, B ≤ c0 + t * (c1 - c0) → (B - c0) / (c1 - c0) ≤ t) := by
  have hdy : 0 < c1 - c0 := by linarith
  refine ⟨ne_of_gt hdy, div_nonneg (by linarith) (by linarith), ?_, ?_, ?_⟩
  · rw [div_le_one hdy]
    linarith
  · field_simp
  · intro t ht
    rw [div_le_iff hdy]
    linarith

theorem clip_sel_end_lower (c0 c1 B : ℚ) (hs : c1 < B) (ho : B ≤ c0) :
    c1 - c0 ≠ 0 ∧ 0 ≤ (B - c0) / (c1 - c0) ∧ (B - c0) / (c1 - c0) ≤ 1 ∧
    c0 + (B - c0) / (c1 - c0) * (c1 - c0) = B ∧
    (∀ t : ℚ, B ≤ c0 + t * (c1 - c0) → t ≤ (B - c0) / (c1 - c0)) := by
  have hdy : c1 - c0 < 0 := by linarith
  refine ⟨ne_of_lt hdy, ?_, ?_, ?_, ?_⟩
  · rw [show B - c0 = -(c0 - B) by ring, show c1 - c0 = -(c0 - c1) by ring, neg_div_neg_eq]
    exact div_nonneg (by linarith) (by linarith)
  · rw [show B - c0 = -(c0 - B) by ring, show c1 - c0 = -(c0 - c1) by ring, neg_div_neg_eq]
    rw [div_le_one (by linarith)]
    linarith
  · rw [div_mul_cancel₀ _ (ne_of_lt hdy)]
    ring
  · intro t ht
    rw [le_div_iff_of_neg hdy]
    linarith

/-- Translating the loop invariants of a clipped sub-segment back to the
original segment: if the new segment spans parameters `[ta, tb]` of the
old one and every rectangle point of the old segment has its parameter
in `[ta, tb]`, then rejection and acceptance facts transfer. -/
theorem clip_step_lift (xm ym xM yM : ℚ) (line nl : Line2D) (ta tb : ℚ)
    (hta0 : 0 ≤ ta) (hta1 : ta ≤ 1) (htb0 : 0 ≤ tb) (htb1 : tb ≤ 1)
    (h0 : (nl.x0, nl.y0) = seg_point line ta)
    (h1 : (nl.x1, nl.y1) = seg_point line tb)
    (hcover : ∀ t, 0 ≤ t → t ≤ 1 →
        in_rect xm ym xM yM (seg_point line t).1 (seg_point line t).2 → ta ≤ t ∧ t ≤ tb)
    (r : Option Line2D)
    (hnone : r = none → ¬ seg_meets xm ym xM yM nl)
    (hsome : ∀ l', r = some l' →
        in_rect xm ym xM yM l'.x0 l'.y0 ∧ in_rect xm ym xM yM l'.x1 l'.y1 ∧
        (∃ sa, 0 ≤ sa ∧ sa ≤ 1 ∧ seg_point nl sa = (l'.x0, l'.y0)) ∧
        (∃ sb, 0 ≤ sb ∧ sb ≤ 1 ∧ seg_point nl sb = (l'.x1, l'.y1))) :
    (r = none → ¬ seg_meets xm ym xM yM line) ∧
    (∀ l', r = some l' →
        in_rect xm ym xM yM l'.x0 l'.y0 ∧ in_rect xm ym xM yM l'.x1 l'.y1 ∧
        (∃ ua, 0 ≤ ua ∧ ua ≤ 1 ∧ seg_point line ua = (l'.x0, l'.y0)) ∧
        (∃ ub, 0 ≤ ub ∧ ub ≤ 1 ∧ seg_point line ub = (l'.x1, l'.y1))) := by
  have hnl : nl = ⟨(seg_point line ta).1, (seg_point line ta).2,
      (seg_point line tb).1, (seg_point line tb).2⟩ := by
    cases nl with
    | mk a b c d =>
      have e1 := congrArg Prod.fst h0
      have e2 := congrArg Prod.snd h0
      have e3 := congrArg Prod.fst h1
      have e4 := congrArg Prod.snd h1
      simp only at e1 e2 e3 e4
      rw [Line2D.mk.injEq]
      exact ⟨e1, e2, e3, e4⟩
  constructor
  · intro hr hm
    apply hnone hr
    obtain ⟨t, ht0, ht1, hin⟩ := hm
    obtain ⟨hc1, hc2⟩ := hcover t ht0 ht1 hin
    obtain ⟨s, hs0, hs1, hst⟩ := exists_reparam ta tb t hc1 hc2
    refine ⟨s, hs0, hs1, ?_⟩
    rw [hnl, seg_point_compose, hst]
    exact hin
  · intro l' hl'
    obtain ⟨hin0, hin1, ⟨sa, hsa0, hsa1, hsa⟩, ⟨sb, hsb0, hsb1, hsb⟩⟩ := hsome l' hl'
    obtain ⟨hua0, hua1⟩ := param_between ta tb sa hta0 hta1 htb0 htb1 hsa0 hsa1
    obtain ⟨hub0, hub1⟩ := param_between ta tb sb hta0 hta1 htb0 htb1 hsb0 hsb1
    refine ⟨hin0, hin1, ⟨ta + sa * (tb - ta), hua0, hua1, ?_⟩,
      ⟨ta + sb * (tb - ta), hub0, hub1, ?_⟩⟩
    · rw [← seg_point_compose line ta tb sa, ← hnl]
      exact hsa
    · rw [← seg_point_compose line ta tb sb, ← hnl]
      exact hsb

theorem box_clip_loop_correct (xm ym xM yM : ℚ) (hx : xm ≤ xM) (hy : ym ≤ yM) :
    ∀ (fuel : ℕ) (line : Line2D),
      lvl (outcode xm ym xM yM line.x0 line.y0) + lvl (outcode xm ym xM yM line.x1 line.y1)
        < fuel →
      ∃ r, box_clip_loop xm ym xM yM fuel line
          (outcode xm ym xM yM line.x0 line.y0) (outcode xm ym xM yM line.x1 line.y1)
          = some r ∧
        (r = none → ¬ seg_meets xm ym xM yM line) ∧
        (∀ l', r = some l' →
          in_rect xm ym xM yM l'.x0 l'.y0 ∧ in_rect xm ym xM yM l'.x1 l'.y1 ∧
          (∃ ta, 0 ≤ ta ∧ ta ≤ 1 ∧ seg_point line ta = (l'.x0, l'.y0)) ∧
          (∃ tb, 0 ≤ tb ∧ tb ≤ 1 ∧ seg_point line tb = (l'.x1, l'.y1))) := by
  intro fuel
  induction fuel with
  | zero => intro line hf; omega
  | succ f ih =>
    intro line hf
    simp only [outcode] at hf ih ⊢
    have hh1 := hcode_mem xm xM line.x0
    have hv1 := vcode_mem ym yM line.y0
    have hh2 := hcode_mem xm xM line.x1
    have hv2 := vcode_mem ym yM line.y1
    by_cases hOR : (hcode xm xM line.x0 ||| vcode ym yM line.y0) |||
        (hcode xm xM line.x1 ||| vcode ym yM line.y1) = 0
    · -- both endpoints inside: accept unchanged
      obtain ⟨e1, e2, e3, e4⟩ := (merged_or_eq_zero _ _ _ _ hh1 hv1 hh2 hv2).mp hOR
      refine ⟨some line, ?_, by simp, ?_⟩
      · rw [box_clip_loop, if_pos hOR]
      · intro l' hl'
        cases Option.some.inj hl'
        refine ⟨⟨((hcode_eq_zero_iff xm xM line.x0).mp e1).1,
            ((hcode_eq_zero_iff xm xM line.x0).mp e1).2,
            ((vcode_eq_zero_iff ym yM line.y0).mp e2).1,
            ((vcode_eq_zero_iff ym yM line.y0).mp e2).2⟩,
          ⟨((hcode_eq_zero_iff xm xM line.x1).mp e3).1,
            ((hcode_eq_zero_iff xm xM line.x1).mp e3).2,
            ((vcode_eq_zero_iff ym yM line.y1).mp e4).1,
            ((vcode_eq_zero_iff ym yM line.y1).mp e4).2⟩,
          ⟨0, le_refl 0, zero_le_one, seg_point_zero line⟩,
          ⟨1, zero_le_one, le_refl 1, seg_point_one line⟩⟩
    · by_cases hAND : (hcode xm xM line.x0 ||| vcode ym yM line.y0) &&&
          (hcode xm xM line.x1 ||| vcode ym yM line.y1) = 0
      · -- clip one endpoint and recurse
        rw [box_clip_loop]
        simp only [if_neg hOR, if_neg (not_not_intro hAND)]
        obtain ⟨houtne, hbr⟩ := merged_some_branch _ _ _ _ hh1 hv1 hh2 hv2 hOR
        by_cases hTop : (max (hcode xm xM line.x0 ||| vcode ym yM line.y0)
            (hcode xm xM line.x1 ||| vcode ym yM line.y1)) &&& 8 ≠ 0
        · simp only [if_pos hTop, outcode]
          by_cases hsel : (hcode xm xM line.x0 ||| vcode ym yM line.y0)
              = max (hcode xm xM line.x0 ||| vcode ym yM line.y0)
                (hcode xm xM line.x1 ||| vcode ym yM line.y1)
          · simp only [if_pos hsel]
            obtain ⟨hv1e, hv2ne⟩ :=
              (merged_top_sel _ _ _ _ hh1 hv1 hh2 hv2 hAND hTop).1 hsel
            have hy0 : yM < line.y0 := ((vcode_eq_eight_iff ym yM line.y0).mp hv1e).2
            have hy1 : line.y1 ≤ yM := vcode_ne_eight_le ym yM line.y1 hy hv2ne
            obtain ⟨hdne, ht00, ht01, heval, hmono⟩ :=
              clip_sel_start_upper line.y0 line.y1 yM hy0 hy1
            have hvnew : vcode ym yM yM = 0 := (vcode_eq_zero_iff ym yM yM).mpr ⟨hy, le_refl yM⟩
            have hlvlnew : lvl (hcode xm xM (line.x0 + (yM - line.y0) / (line.y1 - line.y0)
                * (line.x1 - line.x0)) ||| vcode ym yM yM) ≤ 1 := by
              rw [hvnew, lvl_merged _ _ (hcode_mem _ _ _) (Or.inl rfl)]
              split_ifs <;> omega
            have hlvla : lvl (hcode xm xM line.x0 ||| vcode ym yM line.y0) = 2 := by
              rw [hv1e, lvl_merged _ _ hh1 (Or.inr (Or.inr rfl))]
              norm_num
            obtain ⟨r, hrun, hrnone, hrsome⟩ :=
              ih ⟨line.x0 + (yM - line.y0) / (line.y1 - line.y0) * (line.x1 - line.x0),
                yM, line.x1, line.y1⟩ (by dsimp only; omega)
            have hp0 : (line.x0 + (yM - line.y0) / (line.y1 - line.y0) * (line.x1 - line.x0), yM)
                = seg_point line ((yM - line.y0) / (line.y1 - line.y0)) := by
              unfold seg_point
              rw [Prod.mk.injEq]
              exact ⟨rfl, heval.symm⟩
            have hcover : ∀ t, 0 ≤ t → t ≤ 1 →
                in_rect xm ym xM yM (seg_point line t).1 (seg_point line t).2 →
                (yM - line.y0) / (line.y1 - line.y0) ≤ t ∧ t ≤ 1 := by
              intro t _ ht1 hin
              exact ⟨hmono t hin.2.2.2, ht1⟩
            obtain ⟨hlift1, hlift2⟩ := clip_step_lift xm ym xM yM line
              ⟨line.x0 + (yM - line.y0) / (line.y1 - line.y0) * (line.x1 - line.x0),
                yM, line.x1, line.y1⟩
              ((yM - line.y0) / (line.y1 - line.y0)) 1
              ht00 ht01 zero_le_one (le_refl 1) hp0 (seg_point_one line).symm hcover
              r hrnone hrsome
            exact ⟨r, hrun, hlift1, hlift2⟩
          · simp only [if_neg hsel]
            obtain ⟨hv2e, hv1ne⟩ :=
              (merged_top_sel _ _ _ _ hh1 hv1 hh2 hv2 hAND hTop).2 hsel
            have hy1 : yM < line.y1 := ((vcode_eq_eight_iff ym yM line.y1).mp hv2e).2
            have hy0 : line.y0 ≤ yM := vcode_ne_eight_le ym yM line.y0 hy hv1ne
            obtain ⟨hdne, ht00, ht01, heval, hmono⟩ :=
              clip_sel_end_upper line.y0 line.y1 yM hy1 hy0
            have hvnew : vcode ym yM yM = 0 := (vcode_eq_zero_iff ym yM yM).mpr ⟨hy, le_refl yM⟩
            have hlvlnew : lvl (hcode xm xM (line.x0 + (yM - line.y0) / (line.y1 - line.y0)
                * (line.x1 - line.x0)) ||| vcode ym yM yM) ≤ 1 := by
              rw [hvnew, lvl_merged _ _ (hcode_mem _ _ _) (Or.inl rfl)]
              split_ifs <;> omega
            have hlvlb : lvl (hcode xm xM line.x1 ||| vcode ym yM line.y1) = 2 := by
              rw [hv2e, lvl_merged _ _ hh2 (Or.inr (Or.inr rfl))]
              norm_num
            obtain ⟨r, hrun, hrnone, hrsome⟩ :=
              ih ⟨line.x0, line.y0,
                line.x0 + (yM - line.y0) / (line.y1 - line.y0) * (line.x1 - line.x0), yM⟩
                (by dsimp only; omega)
            have hp1 : (line.x0 + (yM - line.y0) / (line.y1 - line.y0) * (line.x1 - line.x0), yM)
                = seg_point line ((yM - line.y0) / (line.y1 - line.y0)) := by
              unfold seg_point
              rw [Prod.mk.injEq]
              exact ⟨rfl, heval.symm⟩
            have hcover : ∀ t, 0 ≤ t → t ≤ 1 →
                in_rect xm ym xM yM (seg_point line t).1 (seg_point line t).2 →
                0 ≤ t ∧ t ≤ (yM - line.y0) / (line.y1 - line.y0) := by
              intro t ht0 _ hin
              exact ⟨ht0, hmono t hin.2.2.2⟩
            obtain ⟨hlift1, hlift2⟩ := clip_step_lift xm ym xM yM line
              ⟨line.x0, line.y0,
                line.x0 + (yM - line.y0) / (line.y1 - line.y0) * (line.x1 - line.x0), yM⟩
              0 ((yM - line.y0) / (line.y1 - line.y0))
              (le_refl 0) zero_le_one ht00 ht01 (seg_point_zero line).symm hp1 hcover
              r hrnone hrsome
            exact ⟨r, hrun, hlift1, hlift2⟩
        · have hTop' := not_ne_iff.mp hTop
          by_cases hBot : (max (hcode xm xM line.x0 ||| vcode ym yM line.y0)
              (hcode xm xM line.x1 ||| vcode ym yM line.y1)) &&& 4 ≠ 0
          · simp only [if_neg hTop, if_pos hBot, outcode]
            by_cases hsel : (hcode xm xM line.x0 ||| vcode ym yM line.y0)
                = max (hcode xm xM line.x0 ||| vcode ym yM line.y0)
                  (hcode xm xM line.x1 ||| vcode ym yM line.y1)
            · simp only [if_pos hsel]
              obtain ⟨hv1e, hv2z⟩ :=
                (merged_bottom_sel _ _ _ _ hh1 hv1 hh2 hv2 hAND hTop' hBot).1 hsel
              have hy0 : line.y0 < ym := (vcode_eq_four_iff ym yM line.y0).mp hv1e
              have hy1 : ym ≤ line.y1 := ((vcode_eq_zero_iff ym yM line.y1).mp hv2z).1
              obtain ⟨hdne, ht00, ht01, heval, hmono⟩ :=
                clip_sel_start_lower line.y0 line.y1 ym hy0 hy1
              have hvnew : vcode ym yM ym = 0 :=
                (vcode_eq_zero_iff ym yM ym).mpr ⟨le_refl ym, hy⟩
              have hlvlnew : lvl (hcode xm xM (line.x0 + (ym - line.y0) / (line.y1 - line.y0)
                  * (line.x1 - line.x0)) ||| vcode ym yM ym) ≤ 1 := by
                rw [hvnew, lvl_merged _ _ (hcode_mem _ _ _) (Or.inl rfl)]
                split_ifs <;> omega
              have hlvla : lvl (hcode xm xM line.x0 ||| vcode ym yM line.y0) = 2 := by
                rw [hv1e, lvl_merged _ _ hh1 (Or.inr (Or.inl rfl))]
                norm_num
              obtain ⟨r, hrun, hrnone, hrsome⟩ :=
                ih ⟨line.x0 + (ym - line.y0) / (line.y1 - line.y0) * (line.x1 - line.x0),
                  ym, line.x1, line.y1⟩ (by dsimp only; omega)
              have hp0 : (line.x0 + (ym - line.y0) / (line.y1 - line.y0) * (line.x1 - line.x0),
                  ym) = seg_point line ((ym - line.y0) / (line.y1 - line.y0)) := by
                unfold seg_point
                rw [Prod.mk.injEq]
                exact ⟨rfl, heval.symm⟩
              have hcover : ∀ t, 0 ≤ t → t ≤ 1 →
                  in_rect xm ym xM yM (seg_point line t).1 (seg_point line t).2 →
                  (ym - line.y0) / (line.y1 - line.y0) ≤ t ∧ t ≤ 1 := by
                intro t _ ht1 hin
                exact ⟨hmono t hin.2.2.1, ht1⟩
              obtain ⟨hlift1, hlift2⟩ := clip_step_lift xm ym xM yM line
                ⟨line.x0 + (ym - line.y0) / (line.y1 - line.y0) * (line.x1 - line.x0),
                  ym, line.x1, line.y1⟩
                ((ym - line.y0) / (line.y1 - line.y0)) 1
                ht00 ht01 zero_le_one (le_refl 1) hp0 (seg_point_one line).symm hcover
                r hrnone hrsome
              exact ⟨r, hrun, hlift1, hlift2⟩
            · simp only [if_neg hsel]
              obtain ⟨hv2e, hv1z⟩ :=
                (merged_bottom_sel _ _ _ _ hh1 hv1 hh2 hv2 hAND hTop' hBot).2 hsel
              have hy1 : line.y1 < ym := (vcode_eq_four_iff ym yM line.y1).mp hv2e
              have hy0 : ym ≤ line.y0 := ((vcode_eq_zero_iff ym yM line.y0).mp hv1z).1
              obtain ⟨hdne, ht00, ht01, heval, hmono⟩ :=
                clip_sel_end_lower line.y0 line.y1 ym hy1 hy0
              have hvnew : vcode ym yM ym = 0 :=
                (vcode_eq_zero_iff ym yM ym).mpr ⟨le_refl ym, hy⟩
              have hlvlnew : lvl (hcode xm xM (line.x0 + (ym - line.y0) / (line.y1 - line.y0)
                  * (line.x1 - line.x0)) ||| vcode ym yM ym) ≤ 1 := by
                rw [hvnew, lvl_merged _ _ (hcode_mem _ _ _) (Or.inl rfl)]
                split_ifs <;> omega
              have hlvlb : lvl (hcode xm xM line.x1 ||| vcode ym yM line.y1) = 2 := by
                rw [hv2e, lvl_merged _ _ hh2 (Or.inr (Or.inl rfl))]
                norm_num
              obtain ⟨r, hrun, hrnone, hrsome⟩ :=
                ih ⟨line.x0, line.y0,
                  line.x0 + (ym - line.y0) / (line.y1 - line.y0) * (line.x1 - line.x0), ym⟩
                  (by dsimp only; omega)
              have hp1 : (line.x0 + (ym - line.y0) / (line.y1 - line.y0) * (line.x1 - line.x0),
                  ym) = seg_point line ((ym - line.y0) / (line.y1 - line.y0)) := by
                unfold seg_point
                rw [Prod.mk.injEq]
                exact ⟨rfl, heval.symm⟩
              have hcover : ∀ t, 0 ≤ t → t ≤ 1 →
                  in_rect xm ym xM yM (seg_point line t).1 (seg_point line t).2 →
                  0 ≤ t ∧ t ≤ (ym - line.y0) / (line.y1 - line.y0) := by
                intro t ht0 _ hin
                exact ⟨ht0, hmono t hin.2.2.1⟩
              obtain ⟨hlift1, hlift2⟩ := clip_step_lift xm ym xM yM line
                ⟨line.x0, line.y0,
                  line.x0 + (ym - line.y0) / (line.y1 - line.y0) * (line.x1 - line.x0), ym⟩
                0 ((ym - line.y0) / (line.y1 - line.y0))
                (le_refl 0) zero_le_one ht00 ht01 (seg_point_zero line).symm hp1 hcover
                r hrnone hrsome
              exact ⟨r, hrun, hlift1, hlift2⟩
          · have hBot' := not_ne_iff.mp hBot
            by_cases hR : (max (hcode xm xM line.x0 ||| vcode ym yM line.y0)
                (hcode xm xM line.x1 ||| vcode ym yM line.y1)) &&& 2 ≠ 0
            · simp only [if_neg hTop, if_neg hBot, if_pos hR, outcode]
              obtain ⟨hv1z, hv2z, hselst, hselen⟩ :=
                merged_right_sel _ _ _ _ hh1 hv1 hh2 hv2 hAND hTop' hBot' hR
              have hy0m : ym ≤ line.y0 := ((vcode_eq_zero_iff ym yM line.y0).mp hv1z).1
              have hy0M : line.y0 ≤ yM := ((vcode_eq_zero_iff ym yM line.y0).mp hv1z).2
              have hy1m : ym ≤ line.y1 := ((vcode_eq_zero_iff ym yM line.y1).mp hv2z).1
              have hy1M : line.y1 ≤ yM := ((vcode_eq_zero_iff ym yM line.y1).mp hv2z).2
              have hhnew : hcode xm xM xM = 0 :=
                (hcode_eq_zero_iff xm xM xM).mpr ⟨hx, le_refl xM⟩
              by_cases hsel : (hcode xm xM line.x0 ||| vcode ym yM line.y0)
                  = max (hcode xm xM line.x0 ||| vcode ym yM line.y0)
                    (hcode xm xM line.x1 ||| vcode ym yM line.y1)
              · simp only [if_pos hsel]
                obtain ⟨hh1e, hh2ne⟩ := hselst hsel
                have hx0 : xM < line.x0 := ((hcode_eq_two_iff xm xM line.x0).mp hh1e).2
                have hx1 : line.x1 ≤ xM := hcode_ne_two_le xm xM line.x1 hx hh2ne
                obtain ⟨hdne, ht00, ht01, heval, hmono⟩ :=
                  clip_sel_start_upper line.x0 line.x1 xM hx0 hx1
                have hvnew : vcode ym yM (line.y0 + (xM - line.x0) / (line.x1 - line.x0)
                    * (line.y1 - line.y0)) = 0 := by
                  refine (vcode_eq_zero_iff ym yM _).mpr
                    ⟨combo_ge line.y0 line.y1 ym _ hy0m hy1m ht00 ht01,
                     combo_le line.y0 line.y1 yM _ hy0M hy1M ht00 ht01⟩
                have hlvlnew : lvl (hcode xm xM xM ||| vcode ym yM (line.y0
                    + (xM - line.x0) / (line.x1 - line.x0) * (line.y1 - line.y0))) = 0 := by
                  rw [hhnew, hvnew]
                  decide
                have hlvla : lvl (hcode xm xM line.x0 ||| vcode ym yM line.y0) = 1 := by
                  rw [hh1e, hv1z, lvl_merged _ _ (Or.inr (Or.inr rfl)) (Or.inl rfl)]
                  norm_num
                obtain ⟨r, hrun, hrnone, hrsome⟩ :=
                  ih ⟨xM, line.y0 + (xM - line.x0) / (line.x1 - line.x0) * (line.y1 - line.y0),
                    line.x1, line.y1⟩ (by dsimp only; omega)
                have hp0 : (xM, line.y0 + (xM - line.x0) / (line.x1 - line.x0)
                    * (line.y1 - line.y0))
                    = seg_point line ((xM - line.x0) / (line.x1 - line.x0)) := by
                  unfold seg_point
                  rw [Prod.mk.injEq]
                  exact ⟨heval.symm, rfl⟩
                have hcover : ∀ t, 0 ≤ t → t ≤ 1 →
                    in_rect xm ym xM yM (seg_point line t).1 (seg_point line t).2 →
                    (xM - line.x0) / (line.x1 - line.x0) ≤ t ∧ t ≤ 1 := by
                  intro t _ ht1 hin
                  exact ⟨hmono t hin.2.1, ht1⟩
                obtain ⟨hlift1, hlift2⟩ := clip_step_lift xm ym xM yM line
                  ⟨xM, line.y0 + (xM - line.x0) / (line.x1 - line.x0) * (line.y1 - line.y0),
                    line.x1, line.y1⟩
                  ((xM - line.x0) / (line.x1 - line.x0)) 1
                  ht00 ht01 zero_le_one (le_refl 1) hp0 (seg_point_one line).symm hcover
                  r hrnone hrsome
                exact ⟨r, hrun, hlift1, hlift2⟩
              · simp only [if_neg hsel]
                obtain ⟨hh2e, hh1ne⟩ := hselen hsel
                have hx1 : xM < line.x1 := ((hcode_eq_two_iff xm xM line.x1).mp hh2e).2
                have hx0 : line.x0 ≤ xM := hcode_ne_two_le xm xM line.x0 hx hh1ne
                obtain ⟨hdne, ht00, ht01, heval, hmono⟩ :=
                  clip_sel_end_upper line.x0 line.x1 xM hx1 hx0
                have hvnew : vcode ym yM (line.y0 + (xM - line.x0) / (line.x1 - line.x0)
                    * (line.y1 - line.y0)) = 0 := by
                  refine (vcode_eq_zero_iff ym yM _).mpr
                    ⟨combo_ge line.y0 line.y1 ym _ hy0m hy1m ht00 ht01,
                     combo_le line.y0 line.y1 yM _ hy0M hy1M ht00 ht01⟩
                have hlvlnew : lvl (hcode xm xM xM ||| vcode ym yM (line.y0
                    + (xM - line.x0) / (line.x1 - line.x0) * (line.y1 - line.y0))) = 0 := by
                  rw [hhnew, hvnew]
                  decide
                have hlvlb : lvl (hcode xm xM line.x1 ||| vcode ym yM line.y1) = 1 := by
                  rw [hh2e, hv2z, lvl_merged _ _ (Or.inr (Or.inr rfl)) (Or.inl rfl)]
                  norm_num
                obtain ⟨r, hrun, hrnone, hrsome⟩ :=
                  ih ⟨line.x0, line.y0, xM,
                    line.y0 + (xM - line.x0) / (line.x1 - line.x0) * (line.y1 - line.y0)⟩
                    (by dsimp only; omega)
                have hp1 : (xM, line.y0 + (xM - line.x0) / (line.x1 - line.x0)
                    * (line.y1 - line.y0))
                    = seg_point line ((xM - line.x0) / (line.x1 - line.x0)) := by
                  unfold seg_point
                  rw [Prod.mk.injEq]
                  exact ⟨heval.symm, rfl⟩
                have hcover : ∀ t, 0 ≤ t → t ≤ 1 →
                    in_rect xm ym xM yM (seg_point line t).1 (seg_point line t).2 →
                    0 ≤ t ∧ t ≤ (xM - line.x0) / (line.x1 - line.x0) := by
                  intro t ht0 _ hin
                  exact ⟨ht0, hmono t hin.2.1⟩
                obtain ⟨hlift1, hlift2⟩ := clip_step_lift xm ym xM yM line
                  ⟨line.x0, line.y0, xM,
                    line.y0 + (xM - line.x0) / (line.x1 - line.x0) * (line.y1 - line.y0)⟩
                  0 ((xM - line.x0) / (line.x1 - line.x0))
                  (le_refl 0) zero_le_one ht00 ht01 (seg_point_zero line).symm hp1 hcover
                  r hrnone hrsome
                exact ⟨r, hrun, hlift1, hlift2⟩
            · have hR' := not_ne_iff.mp hR
              by_cases hL : (max (hcode xm xM line.x0 ||| vcode ym yM line.y0)
                  (hcode xm xM line.x1 ||| vcode ym yM line.y1)) &&& 1 ≠ 0
              · simp only [if_neg hTop, if_neg hBot, if_neg hR, if_pos hL, outcode]
                obtain ⟨hv1z, hv2z, hselst, hselen⟩ :=
                  merged_left_sel _ _ _ _ hh1 hv1 hh2 hv2 hAND hTop' hBot' hR' hL
                have hy0m : ym ≤ line.y0 := ((vcode_eq_zero_iff ym yM line.y0).mp hv1z).1
                have hy0M : line.y0 ≤ yM := ((vcode_eq_zero_iff ym yM line.y0).mp hv1z).2
                have hy1m : ym ≤ line.y1 := ((vcode_eq_zero_iff ym yM line.y1).mp hv2z).1
                have hy1M : line.y1 ≤ yM := ((vcode_eq_zero_iff ym yM line.y1).mp hv2z).2
                have hhnew : hcode xm xM xm = 0 :=
                  (hcode_eq_zero_iff xm xM xm).mpr ⟨le_refl xm, hx⟩
                by_cases hsel : (hcode xm xM line.x0 ||| vcode ym yM line.y0)
                    = max (hcode xm xM line.x0 ||| vcode ym yM line.y0)
                      (hcode xm xM line.x1 ||| vcode ym yM line.y1)
                · simp only [if_pos hsel]
                  obtain ⟨hh1e, hh2ne⟩ := hselst hsel
                  have hx0 : line.x0 < xm := (hcode_eq_one_iff xm xM line.x0).mp hh1e
                  have hx1 : xm ≤ line.x1 := hcode_ne_one_ge xm xM line.x1 hh2ne
                  obtain ⟨hdne, ht00, ht01, heval, hmono⟩ :=
                    clip_sel_start_lower line.x0 line.x1 xm hx0 hx1
                  have hvnew : vcode ym yM (line.y0 + (xm - line.x0) / (line.x1 - line.x0)
                      * (line.y1 - line.y0)) = 0 := by
                    refine (vcode_eq_zero_iff ym yM _).mpr
                      ⟨combo_ge line.y0 line.y1 ym _ hy0m hy1m ht00 ht01,
                       combo_le line.y0 line.y1 yM _ hy0M hy1M ht00 ht01⟩
                  have hlvlnew : lvl (hcode xm xM xm ||| vcode ym yM (line.y0
                      + (xm - line.x0) / (line.x1 - line.x0) * (line.y1 - line.y0))) = 0 := by
                    rw [hhnew, hvnew]
                    decide
                  have hlvla : lvl (hcode xm xM line.x0 ||| vcode ym yM line.y0) = 1 := by
                    rw [hh1e, hv1z, lvl_merged _ _ (Or.inr (Or.inl rfl)) (Or.inl rfl)]
                    norm_num
                  obtain ⟨r, hrun, hrnone, hrsome⟩ :=
                    ih ⟨xm, line.y0 + (xm - line.x0) / (line.x1 - line.x0) * (line.y1 - line.y0),
                      line.x1, line.y1⟩ (by dsimp only; omega)
                  have hp0 : (xm, line.y0 + (xm - line.x0) / (line.x1 - line.x0)
                      * (line.y1 - line.y0))
                      = seg_point line ((xm - line.x0) / (line.x1 - line.x0)) := by
                    unfold seg_point
                    rw [Prod.mk.injEq]
                    exact ⟨heval.symm, rfl⟩
                  have hcover : ∀ t, 0 ≤ t → t ≤ 1 →
                      in_rect xm ym xM yM (seg_point line t).1 (seg_point line t).2 →
                      (xm - line.x0) / (line.x1 - line.x0) ≤ t ∧ t ≤ 1 := by
                    intro t _ ht1 hin
                    exact ⟨hmono t hin.1, ht1⟩
                  obtain ⟨hlift1, hlift2⟩ := clip_step_lift xm ym xM yM line
                    ⟨xm, line.y0 + (xm - line.x0) / (line.x1 - line.x0) * (line.y1 - line.y0),
                      line.x1, line.y1⟩
                    ((xm - line.x0) / (line.x1 - line.x0)) 1
                    ht00 ht01 zero_le_one (le_refl 1) hp0 (seg_point_one line).symm hcover
                    r hrnone hrsome
                  exact ⟨r, hrun, hlift1, hlift2⟩
                · simp only [if_neg hsel]
                  obtain ⟨hh2e, hh1ne⟩ := hselen hsel
                  have hx1 : line.x1 < xm := (hcode_eq_one_iff xm xM line.x1).mp hh2e
                  have hx0 : xm ≤ line.x0 := hcode_ne_one_ge xm xM line.x0 hh1ne
                  obtain ⟨hdne, ht00, ht01, heval, hmono⟩ :=
                    clip_sel_end_lower line.x0 line.x1 xm hx1 hx0
                  have hvnew : vcode ym yM (line.y0 + (xm - line.x0) / (line.x1 - line.x0)
                      * (line.y1 - line.y0)) = 0 := by
                    refine (vcode_eq_zero_iff ym yM _).mpr
                      ⟨combo_ge line.y0 line.y1 ym _ hy0m hy1m ht00 ht01,
                       combo_le line.y0 line.y1 yM _ hy0M hy1M ht00 ht01⟩
                  have hlvlnew : lvl (hcode xm xM xm ||| vcode ym yM (line.y0
                      + (xm - line.x0) / (line.x1 - line.x0) * (line.y1 - line.y0))) = 0 := by
                    rw [hhnew, hvnew]
                    decide
                  have hlvlb : lvl (hcode xm xM line.x1 ||| vcode ym yM line.y1) = 1 := by
                    rw [hh2e, hv2z, lvl_merged _ _ (Or.inr (Or.inl rfl)) (Or.inl rfl)]
                    norm_num
                  obtain ⟨r, hrun, hrnone, hrsome⟩ :=
                    ih ⟨line.x0, line.y0, xm,
                      line.y0 + (xm - line.x0) / (line.x1 - line.x0) * (line.y1 - line.y0)⟩
                      (by dsimp only; omega)
                  have hp1 : (xm, line.y0 + (xm - line.x0) / (line.x1 - line.x0)
                      * (line.y1 - line.y0))
                      = seg_point line ((xm - line.x0) / (line.x1 - line.x0)) := by
                    unfold seg_point
                    rw [Prod.mk.injEq]
                    exact ⟨heval.symm, rfl⟩
                  have hcover : ∀ t, 0 ≤ t → t ≤ 1 →
                      in_rect xm ym xM yM (seg_point line t).1 (seg_point line t).2 →
                      0 ≤ t ∧ t ≤ (xm - line.x0) / (line.x1 - line.x0) := by
                    intro t ht0 _ hin
                    exact ⟨ht0, hmono t hin.1⟩
                  obtain ⟨hlift1, hlift2⟩ := clip_step_lift xm ym xM yM line
                    ⟨line.x0, line.y0, xm,
                      line.y0 + (xm - line.x0) / (line.x1 - line.x0) * (line.y1 - line.y0)⟩
                    0 ((xm - line.x0) / (line.x1 - line.x0))
                    (le_refl 0) zero_le_one ht00 ht01 (seg_point_zero line).symm hp1 hcover
                    r hrnone hrsome
                  exact ⟨r, hrun, hlift1, hlift2⟩
              · exfalso
                rcases hbr with h | h | h | h
                exacts [hTop h, hBot h, hR h, hL h]
      · -- reject: both endpoints share an outside region
        refine ⟨none, ?_, ?_, by simp⟩
        · rw [box_clip_loop, if_neg hOR, if_pos hAND]
        · intro _
          rintro ⟨t, ht0, ht1, hin⟩
          simp only [seg_point, in_rect] at hin
          rcases merged_and_shared _ _ _ _ hh1 hv1 hh2 hv2 hAND with
            ⟨e1, e2⟩ | ⟨e1, e2⟩ | ⟨e1, e2⟩ | ⟨e1, e2⟩
          · have c0 := (hcode_eq_one_iff xm xM line.x0).mp e1
            have c1 := (hcode_eq_one_iff xm xM line.x1).mp e2
            have := combo_lt line.x0 line.x1 xm t c0 c1 ht0 ht1
            linarith [hin.1]
          · have c0 := ((hcode_eq_two_iff xm xM line.x0).mp e1).2
            have c1 := ((hcode_eq_two_iff xm xM line.x1).mp e2).2
            have := combo_gt line.x0 line.x1 xM t c0 c1 ht0 ht1
            linarith [hin.2.1]
          · have c0 := (vcode_eq_four_iff ym yM line.y0).mp e1
            have c1 := (vcode_eq_four_iff ym yM line.y1).mp e2
            have := combo_lt line.y0 line.y1 ym t c0 c1 ht0 ht1
            linarith [hin.2.2.1]
          · have c0 := ((vcode_eq_eight_iff ym yM line.y0).mp e1).2
            have c1 := ((vcode_eq_eight_iff ym yM line.y1).mp e2).2
            have := combo_gt line.y0 line.y1 yM t c0 c1 ht0 ht1
            linarith [hin.2.2.2]

theorem merged_bit8_pair (h1 v1 h2 v2 : ℕ)
    (hh1 : h1 = 0 ∨ h1 = 1 ∨ h1 = 2) (hv1 : v1 = 0 ∨ v1 = 4 ∨ v1 = 8)
    (hh2 : h2 = 0 ∨ h2 = 1 ∨ h2 = 2) (hv2 : v2 = 0 ∨ v2 = 4 ∨ v2 = 8)
    (hAND : (h1 ||| v1) &&& (h2 ||| v2) = 0)
    (hb : max (h1 ||| v1) (h2 ||| v2) &&& 8 ≠ 0) :
    (v1 = 8 ∧ v2 ≠ 8) ∨ (v2 = 8 ∧ v1 ≠ 8) := by
  rcases hh1 with rfl | rfl | rfl <;> rcases hv1 with rfl | rfl | rfl <;>
    rcases hh2 with rfl | rfl | rfl <;> rcases hv2 with rfl | rfl | rfl <;>
    revert hAND hb <;> decide

theorem merged_bit4_pair (h1 v1 h2 v2 : ℕ)
    (hh1 : h1 = 0 ∨ h1 = 1 ∨ h1 = 2) (hv1 : v1 = 0 ∨ v1 = 4 ∨ v1 = 8)
    (hh2 : h2 = 0 ∨ h2 = 1 ∨ h2 = 2) (hv2 : v2 = 0 ∨ v2 = 4 ∨ v2 = 8)
    (hAND : (h1 ||| v1) &&& (h2 ||| v2) = 0)
    (hb : max (h1 ||| v1) (h2 ||| v2) &&& 4 ≠ 0) :
    (v1 = 4 ∧ v2 ≠ 4) ∨ (v2 = 4 ∧ v1 ≠ 4) := by
  rcases hh1 with rfl | rfl | rfl <;> rcases hv1 with rfl | rfl | rfl <;>
    rcases hh2 with rfl | rfl | rfl <;> rcases hv2 with rfl | rfl | rfl <;>
    revert hAND hb <;> decide

theorem merged_bit2_pair (h1 v1 h2 v2 : ℕ)
    (hh1 : h1 = 0 ∨ h1 = 1 ∨ h1 = 2) (hv1 : v1 = 0 ∨ v1 = 4 ∨ v1 = 8)
    (hh2 : h2 = 0 ∨ h2 = 1 ∨ h2 = 2) (hv2 : v2 = 0 ∨ v2 = 4 ∨ v2 = 8)
    (hAND : (h1 ||| v1) &&& (h2 ||| v2) = 0)
    (hb : max (h1 ||| v1) (h2 ||| v2) &&& 2 ≠ 0) :
    (h1 = 2 ∧ h2 ≠ 2) ∨ (h2 = 2 ∧ h1 ≠ 2) := by
  rcases hh1 with rfl | rfl | rfl <;> rcases hv1 with rfl | rfl | rfl <;>
    rcases hh2 with rfl | rfl | rfl <;> rcases hv2 with rfl | rfl | rfl <;>
    revert hAND hb <;> decide

theorem merged_bit1_pair (h1 v1 h2 v2 : ℕ)
    (hh1 : h1 = 0 ∨ h1 = 1 ∨ h1 = 2) (hv1 : v1 = 0 ∨ v1 = 4 ∨ v1 = 8)
    (hh2 : h2 = 0 ∨ h2 = 1 ∨ h2 = 2) (hv2 : v2 = 0 ∨ v2 = 4 ∨ v2 = 8)
    (hAND : (h1 ||| v1) &&& (h2 ||| v2) = 0)
    (hb : max (h1 ||| v1) (h2 ||| v2) &&& 1 ≠ 0) :
    (h1 = 1 ∧ h2 ≠ 1) ∨ (h2 = 1 ∧ h1 ≠ 1) := by
  rcases hh1 with rfl | rfl | rfl <;> rcases hv1 with rfl | rfl | rfl <;>
    rcases hh2 with rfl | rfl | rfl <;> rcases hv2 with rfl | rfl | rfl <;>
    revert hAND hb <;> decide

/-- C7: in every iteration of the `box_clip` loop (an iteration state is
a current segment whose stored outcodes pass the accept and reject
tests), each division is guarded: the TOP and BOTTOM branches divide by
a nonzero `dy`, the RIGHT and LEFT branches divide by a nonzero `dx`,
and the selected outcode is nonzero with some branch firing, so the
final `panic!` arm is unreachable. -/
theorem box_clip_division_guards (xm ym xM yM : ℚ) (l : Line2D)
    (hx : xm ≤ xM) (hy : ym ≤ yM)
    (hOR : ¬ (outcode xm ym xM yM l.x0 l.y0 ||| outcode xm ym xM yM l.x1 l.y1) = 0)
    (hAND : outcode xm ym xM yM l.x0 l.y0 &&& outcode xm ym xM yM l.x1 l.y1 = 0) :
    (max (outcode xm ym xM yM l.x0 l.y0) (outcode xm ym xM yM l.x1 l.y1) &&& 8 ≠ 0 →
      l.y1 - l.y0 ≠ 0) ∧
    (max (outcode xm ym xM yM l.x0 l.y0) (outcode xm ym xM yM l.x1 l.y1) &&& 4 ≠ 0 →
      l.y1 - l.y0 ≠ 0) ∧
    (max (outcode xm ym xM yM l.x0 l.y0) (outcode xm ym xM yM l.x1 l.y1) &&& 2 ≠ 0 →
      l.x1 - l.x0 ≠ 0) ∧
    (max (outcode xm ym xM yM l.x0 l.y0) (outcode xm ym xM yM l.x1 l.y1) &&& 1 ≠ 0 →
      l.x1 - l.x0 ≠ 0) ∧
    max (outcode xm ym xM yM l.x0 l.y0) (outcode xm ym xM yM l.x1 l.y1) ≠ 0 ∧
    (max (outcode xm ym xM yM l.x0 l.y0) (outcode xm ym xM yM l.x1 l.y1) &&& 8 ≠ 0 ∨
     max (outcode xm ym xM yM l.x0 l.y0) (outcode xm ym xM yM l.x1 l.y1) &&& 4 ≠ 0 ∨
     max (outcode xm ym xM yM l.x0 l.y0) (outcode xm ym xM yM l.x1 l.y1) &&& 2 ≠ 0 ∨
     max (outcode xm ym xM yM l.x0 l.y0) (outcode xm ym xM yM l.x1 l.y1) &&& 1 ≠ 0) := by
  simp only [outcode] at hOR hAND ⊢
  have hh1 := hcode_mem xm xM l.x0
  have hv1 := vcode_mem ym yM l.y0
  have hh2 := hcode_mem xm xM l.x1
  have hv2 := vcode_mem ym yM l.y1
  obtain ⟨hne, hfire⟩ := merged_some_branch _ _ _ _ hh1 hv1 hh2 hv2 hOR
  refine ⟨?_, ?_, ?_, ?_, hne, hfire⟩
  · intro hb
    rcases merged_bit8_pair _ _ _ _ hh1 hv1 hh2 hv2 hAND hb with ⟨e1, e2⟩ | ⟨e1, e2⟩
    · have c1 : yM < l.y0 := ((vcode_eq_eight_iff ym yM l.y0).mp e1).2
      have c2 : l.y1 ≤ yM := vcode_ne_eight_le ym yM l.y1 hy e2
      intro h
      have : l.y1 = l.y0 := by linarith [sub_eq_zero.mp h]
      linarith
    · have c1 : yM < l.y1 := ((vcode_eq_eight_iff ym yM l.y1).mp e1).2
      have c2 : l.y0 ≤ yM := vcode_ne_eight_le ym yM l.y0 hy e2
      intro h
      have : l.y1 = l.y0 := by linarith [sub_eq_zero.mp h]
      linarith
  · intro hb
    rcases merged_bit4_pair _ _ _ _ hh1 hv1 hh2 hv2 hAND hb with ⟨e1, e2⟩ | ⟨e1, e2⟩
    · have c1 : l.y0 < ym := (vcode_eq_four_iff ym yM l.y0).mp e1
      have c2 : ym ≤ l.y1 := vcode_ne_four_ge ym yM l.y1 e2
      intro h
      have : l.y1 = l.y0 := by linarith [sub_eq_zero.mp h]
      linarith
    · have c1 : l.y1 < ym := (vcode_eq_four_iff ym yM l.y1).mp e1
      have c2 : ym ≤ l.y0 := vcode_ne_four_ge ym yM l.y0 e2
      intro h
      have : l.y1 = l.y0 := by linarith [sub_eq_zero.mp h]
      linarith
  · intro hb
    rcases merged_bit2_pair _ _ _ _ hh1 hv1 hh2 hv2 hAND hb with ⟨e1, e2⟩ | ⟨e1, e2⟩
    · have c1 : xM < l.x0 := ((hcode_eq_two_iff xm xM l.x0).mp e1).2
      have c2 : l.x1 ≤ xM := hcode_ne_two_le xm xM l.x1 hx e2
      intro h
      have : l.x1 = l.x0 := by linarith [sub_eq_zero.mp h]
      linarith
    · have c1 : xM < l.x1 := ((hcode_eq_two_iff xm xM l.x1).mp e1).2
      have c2 : l.x0 ≤ xM := hcode_ne_two_le xm xM l.x0 hx e2
      intro h
      have : l.x1 = l.x0 := by linarith [sub_eq_zero.mp h]
      linarith
  · intro hb
    rcases merged_bit1_pair _ _ _ _ hh1 hv1 hh2 hv2 hAND hb with ⟨e1, e2⟩ | ⟨e1, e2⟩
    · have c1 : l.x0 < xm := (hcode_eq_one_iff xm xM l.x0).mp e1
      have c2 : xm ≤ l.x1 := hcode_ne_one_ge xm xM l.x1 e2
      intro h
      have : l.x1 = l.x0 := by linarith [sub_eq_zero.mp h]
      linarith
    · have c1 : l.x1 < xm := (hcode_eq_one_iff xm xM l.x1).mp e1
      have c2 : xm ≤ l.x0 := hcode_ne_one_ge xm xM l.x0 e2
      intro h
      have : l.x1 = l.x0 := by linarith [sub_eq_zero.mp h]
      linarith

/-- Witness for C7: the segment from `(5, 20)` to `(5, 5)` against the
rectangle `[0,10]×[0,10]` has its start outside above, so the TOP
branch is selected and its divisor is nonzero. -/
theorem box_clip_division_guards_witness :
    ((0 : ℚ) ≤ 10 ∧
      ¬ (outcode 0 0 10 10 (Line2D.mk 5 20 5 5).x0 (Line2D.mk 5 20 5 5).y0 |||
          outcode 0 0 10 10 (Line2D.mk 5 20 5 5).x1 (Line2D.mk 5 20 5 5).y1) = 0 ∧
      outcode 0 0 10 10 (Line2D.mk 5 20 5 5).x0 (Line2D.mk 5 20 5 5).y0 &&&
          outcode 0 0 10 10 (Line2D.mk 5 20 5 5).x1 (Line2D.mk 5 20 5 5).y1 = 0) ∧
    ((Line2D.mk 5 20 5 5).y1 - (Line2D.mk 5 20 5 5).y0 ≠ 0 ∧
      max (outcode 0 0 10 10 (Line2D.mk 5 20 5 5).x0 (Line2D.mk 5 20 5 5).y0)
        (outcode 0 0 10 10 (Line2D.mk 5 20 5 5).x1 (Line2D.mk 5 20 5 5).y1) ≠ 0) := by
  have hc : outcode 0 0 10 10 (Line2D.mk 5 20 5 5).x0 (Line2D.mk 5 20 5 5).y0 = 8 ∧
      outcode 0 0 10 10 (Line2D.mk 5 20 5 5).x1 (Line2D.mk 5 20 5 5).y1 = 0 := by
    unfold outcode hcode vcode
    norm_num
  have h := box_clip_division_guards 0 0 10 10 (Line2D.mk 5 20 5 5)
    (by norm_num) (by norm_num) (by rw [hc.1, hc.2]; decide) (by rw [hc.1, hc.2]; decide)
  refine ⟨⟨by norm_num, by rw [hc.1, hc.2]; decide, by rw [hc.1, hc.2]; decide⟩,
    h.1 (by rw [hc.1, hc.2]; decide), h.2.2.2.2.1⟩

/-- C3: `box_clip` returns `None` when the rectangle is degenerate
(`x_max < x_min` or `y_max < y_min`) or the segment lies fully outside
the rectangle; otherwise it returns the clipped segment, whose both
endpoints lie inside `[x_min,x_max]×[y_min,y_max]`; and a segment whose
endpoints are both already inside is returned unchanged.  (The outer
`some` below records that the loop terminates without reaching the
`panic!` arm.) -/
theorem box_clip_correct (l : Line2D) (xm ym xM yM : ℚ) :
    (xM < xm ∨ yM < ym → box_clip l xm ym xM yM = some none) ∧
    (xm ≤ xM → ym ≤ yM →
      (¬ seg_meets xm ym xM yM l → box_clip l xm ym xM yM = some none) ∧
      (seg_meets xm ym xM yM l → ∃ l', box_clip l xm ym xM yM = some (some l') ∧
        in_rect xm ym xM yM l'.x0 l'.y0 ∧ in_rect xm ym xM yM l'.x1 l'.y1) ∧
      (in_rect xm ym xM yM l.x0 l.y0 → in_rect xm ym xM yM l.x1 l.y1 →
        box_clip l xm ym xM yM = some (some l))) := by
  constructor
  · intro h
    rw [box_clip]
    rcases h with h | h
    · rw [if_pos h]
    · by_cases h2 : xM < xm
      · rw [if_pos h2]
      · rw [if_neg h2, if_pos h]
  · intro hxr hyr
    have hnd1 : ¬ xM < xm := not_lt.mpr hxr
    have hnd2 : ¬ yM < ym := not_lt.mpr hyr
    have hfb : lvl (outcode xm ym xM yM l.x0 l.y0) + lvl (outcode xm ym xM yM l.x1 l.y1)
        < 5 := by
      have b1 := lvl_le_two (outcode xm ym xM yM l.x0 l.y0)
      have b2 := lvl_le_two (outcode xm ym xM yM l.x1 l.y1)
      omega
    obtain ⟨r, hrun, hnone, hsome⟩ := box_clip_loop_correct xm ym xM yM hxr hyr 5 l hfb
    refine ⟨?_, ?_, ?_⟩
    · intro hnm
      rw [box_clip, if_neg hnd1, if_neg hnd2, hrun]
      cases r with
      | none => rfl
      | some l' =>
        exfalso
        obtain ⟨hin0, _, ⟨ta, hta0, hta1, hseg⟩, _⟩ := hsome l' rfl
        exact hnm ⟨ta, hta0, hta1, by rw [hseg]; exact hin0⟩
    · intro hm
      cases r with
      | none => exact absurd hm (hnone rfl)
      | some l' =>
        obtain ⟨hin0, hin1, _, _⟩ := hsome l' rfl
        exact ⟨l', by rw [box_clip, if_neg hnd1, if_neg hnd2, hrun], hin0, hin1⟩
    · intro h0 h1
      have e0 : outcode xm ym xM yM l.x0 l.y0 = 0 := by
        show hcode xm xM l.x0 ||| vcode ym yM l.y0 = 0
        rw [(hcode_eq_zero_iff xm xM l.x0).mpr ⟨h0.1, h0.2.1⟩,
          (vcode_eq_zero_iff ym yM l.y0).mpr ⟨h0.2.2.1, h0.2.2.2⟩]
        decide
      have e1 : outcode xm ym xM yM l.x1 l.y1 = 0 := by
        show hcode xm xM l.x1 ||| vcode ym yM l.y1 = 0
        rw [(hcode_eq_zero_iff xm xM l.x1).mpr ⟨h1.1, h1.2.1⟩,
          (vcode_eq_zero_iff ym yM l.y1).mpr ⟨h1.2.2.1, h1.2.2.2⟩]
        decide
      rw [box_clip, if_neg hnd1, if_neg hnd2,
        show (5 : ℕ) = 4 + 1 from rfl, box_clip_loop, if_pos (by rw [e0, e1]; decide)]

/-- Witness for C3: the segment from `(1, 1)` to `(2, 2)` lies inside
`[0,10]×[0,10]` and is returned unchanged. -/
theorem box_clip_correct_witness :
    ((0 : ℚ) ≤ 10 ∧ in_rect 0 0 10 10 (Line2D.mk 1 1 2 2).x0 (Line2D.mk 1 1 2 2).y0 ∧
      in_rect 0 0 10 10 (Line2D.mk 1 1 2 2).x1 (Line2D.mk 1 1 2 2).y1) ∧
    box_clip (Line2D.mk 1 1 2 2) 0 0 10 10 = some (some (Line2D.mk 1 1 2 2)) := by
  have h0 : in_rect 0 0 10 10 (Line2D.mk 1 1 2 2).x0 (Line2D.mk 1 1 2 2).y0 := by
    refine ⟨by norm_num, by norm_num, by norm_num, by norm_num⟩
  have h1 : in_rect 0 0 10 10 (Line2D.mk 1 1 2 2).x1 (Line2D.mk 1 1 2 2).y1 := by
    refine ⟨by norm_num, by norm_num, by norm_num, by norm_num⟩
  exact ⟨⟨by norm_num, h0, h1⟩,
    ((box_clip_correct (Line2D.mk 1 1 2 2) 0 0 10 10).2 (by norm_num) (by norm_num)).2.2 h0 h1⟩

end Olive3D
